import Mathlib

/-!
Verification development for the pipen-annotate docstring parser and
annotation-tree merger (`pipen_annotate/sections.py`, `pipen_annotate/utils.py`,
`pipen_annotate/annotate.py`).

The Python code is shallowly embedded: ordered Python dicts (diot/OrderedDiot)
become association lists, exceptions become `Except`, and the in-place
mutation discipline of `_update_terms` is additionally modelled by a small
object-store semantics (`Store`/`updateTermsS`) so that frame properties
("the base tree is never mutated") are genuine theorems rather than artifacts
of a pure translation.
-/

namespace PipenAnnotate

/-! ## Python string primitives -/

/-- Whitespace characters recognised by Python's `str.strip`/`\s` (ASCII). -/
def pyWS (c : Char) : Bool :=
  c = ' ' || c = '\t' || c = '\n' || c = '\r' || c = '\x0c' || c = '\x0b'

/-- Split a character list on a separator character (Python `str.split` with
a one-character separator, which is the only form this code base uses). -/
def splitOnChar (c : Char) : List Char → List (List Char)
  | [] => [[]]
  | x :: rest =>
    match splitOnChar c rest with
    | [] => [[]]
    | h :: t => if x = c then [] :: h :: t else (x :: h) :: t

/-- Function `strSplitOnChar c s` is Python `s.split(c)`. -/
def strSplitOnChar (c : Char) (s : String) : List String :=
  (splitOnChar c s.toList).map String.mk

/-- Join character lists with a separator character. -/
def joinChar (c : Char) : List (List Char) → List Char
  | [] => []
  | [x] => x
  | x :: rest => x ++ c :: joinChar c rest

/-- Python `"\n".join(lines)`. -/
def joinNl : List String → String
  | [] => ""
  | [x] => x
  | x :: rest => x ++ "\n" ++ joinNl rest

/-- Boolean list-prefix test on characters. -/
def chPre : List Char → List Char → Bool
  | [], _ => true
  | _ :: _, [] => false
  | a :: as, b :: bs => (a = b) && chPre as bs

/-- Python `s.startswith(p)`. -/
def pyStartsWith (s p : String) : Bool :=
  chPre p.toList s.toList

/-- Python `s.endswith(p)`. -/
def pyEndsWith (s p : String) : Bool :=
  chPre p.toList.reverse s.toList.reverse

/-- Character membership (Python `c in s`). -/
def chMem (c : Char) : List Char → Bool
  | [] => false
  | x :: rest => (x = c) || chMem c rest

/-- Python `str.lstrip()`. -/
def pyLstrip (s : String) : String :=
  String.mk (s.toList.dropWhile pyWS)

/-- Python `str.strip()`. -/
def pyStrip (s : String) : String :=
  String.mk (((s.toList.dropWhile pyWS).reverse.dropWhile pyWS).reverse)

/-- Leading run of space/tab characters of a line (`_leading_whitespace_re`). -/
def leadingWS (s : String) : List Char :=
  s.toList.takeWhile (fun c => c = ' ' || c = '\t')

/-- True when the string is nonempty and made only of spaces/tabs
(`_whitespace_only_re` in `textwrap`). -/
def wsOnly (s : String) : Bool :=
  s ≠ "" && s.toList.all (fun c => c = ' ' || c = '\t')

/-- Longest common prefix of two character lists. -/
def lcpChars : List Char → List Char → List Char
  | x :: xs, y :: ys => if x = y then x :: lcpChars xs ys else []
  | _, _ => []

/-- Python `str.splitlines()` restricted to `"\n"` separators (the only
separator occurring in this code base). -/
def pySplitlines (s : String) : List String :=
  if s = "" then []
  else
    let parts := strSplitOnChar '\n' s
    if parts.getLast? = some "" then parts.dropLast else parts

/-- Python `textwrap.dedent` applied per physical line: whitespace-only lines are
first blanked, the margin is the longest common leading-whitespace prefix of
the remaining nonempty lines, and the margin is stripped from every nonempty
line. -/
def dedentParts (ls0 : List String) : List String :=
  let ls := ls0.map (fun l => if wsOnly l then "" else l)
  let indents := (ls.filter (fun l => l ≠ "")).map leadingWS
  let margin :=
    match indents with
    | [] => []
    | h :: t => t.foldl lcpChars h
  ls.map (fun l => if l = "" then "" else String.mk (l.toList.drop margin.length))

/-- The helper `utils.dedent`: `textwrap.dedent("\n".join(lines)).splitlines()`. -/
def pyDedent (lines : List String) : List String :=
  let parts := strSplitOnChar '\n' (joinNl lines)
  pySplitlines (joinNl (dedentParts parts))

/-- The helper `utils.end_of_sentence`: the line ends with `.`, `?`, `!` or `:`. -/
def endOfSentence (line : String) : Bool :=
  pyEndsWith line "." || pyEndsWith line "?" || pyEndsWith line "!" || pyEndsWith line ":"

/-- Python `str.isidentifier()` (ASCII fragment, which covers every input in
this code base). -/
def pyIsIdent (s : String) : Bool :=
  match s.toList with
  | [] => false
  | c :: rest => (c.isAlpha || c = '_') && rest.all (fun d => d.isAlphanum || d = '_')

/-! ## Data model: terms, attributes, term trees -/

/-- An attribute value at parse level: the literal `True` for a bare flag, or
a string. -/
inductive AttrVal where
  | vtrue : AttrVal
  | vstr : String → AttrVal
deriving DecidableEq, Repr

/-- Model of `ItemAttrs`: an ordered mapping of attribute names to values plus the
`origin` meta list recording declaration order (stored out of band in
`__diot__` by the Python code). -/
structure ItemAttrs where
  pairs : List (String × AttrVal)
  origin : List String
deriving DecidableEq, Repr

/-- Model of `ItemTerm`: name, attributes, child terms, accumulated help, and the
`raw_help` meta list.  Child terms form an ordered mapping. -/
inductive ItemTerm where
  | mk : String → ItemAttrs → List (String × ItemTerm) → String → List String → ItemTerm
deriving Repr

/-- Term name. -/
def ItemTerm.name : ItemTerm → String
  | .mk n _ _ _ _ => n

/-- Term attributes. -/
def ItemTerm.attrs : ItemTerm → ItemAttrs
  | .mk _ a _ _ _ => a

/-- Child terms. -/
def ItemTerm.terms : ItemTerm → List (String × ItemTerm)
  | .mk _ _ t _ _ => t

/-- Accumulated help text. -/
def ItemTerm.help : ItemTerm → String
  | .mk _ _ _ h _ => h

/-- The `raw_help` meta list. -/
def ItemTerm.rawHelp : ItemTerm → List String
  | .mk _ _ _ _ r => r

/-- An ordered mapping from term name to term (`ItemTerms`). -/
abbrev TermMap := List (String × ItemTerm)

/-! ## Ordered-dict operations on association lists -/

/-- Lookup of the first entry with the given key (Python dict lookup; actual
dicts never hold duplicate keys). -/
def alGet {κ α : Type} [DecidableEq κ] : List (κ × α) → κ → Option α
  | [], _ => none
  | (k', v) :: rest, k => if k' = k then some v else alGet rest k

/-- Replace the value of every entry with the given key. -/
def alReplace {κ α : Type} [DecidableEq κ] (k : κ) (v : α) : List (κ × α) → List (κ × α)
  | [] => []
  | (k', v') :: rest =>
      if k' = k then (k, v) :: alReplace k v rest
      else (k', v') :: alReplace k v rest

/-- First-wins choice on options (used to state "derived value takes
precedence" attribute lookups). -/
def optOr {α : Type} (a b : Option α) : Option α :=
  match a with
  | some x => some x
  | none => b

/-- Python `d[k] = v`: replace in place when the key exists, append otherwise. -/
def alSet {κ α : Type} [DecidableEq κ] (m : List (κ × α)) (k : κ) (v : α) : List (κ × α) :=
  if (alGet m k).isSome then alReplace k v m else m ++ [(k, v)]

/-- Python `d.update(other)`: fold `alSet` over the other dict's entries. -/
def alUpdate {α : Type} (base other : List (String × α)) : List (String × α) :=
  other.foldl (fun acc p => alSet acc p.1 p.2) base

/-- Keys of an association list. -/
def alKeys {α : Type} (m : List (String × α)) : List String :=
  m.map Prod.fst

/-- Boolean membership in a list of strings (Python `in`). -/
def strMem (k : String) : List String → Bool
  | [] => false
  | x :: rest => (x = k) || strMem k rest

/-- No two entries share a key (always true of maps produced by Python dicts). -/
def alNodup {α : Type} : List (String × α) → Bool
  | [] => true
  | (k, _) :: rest => !strMem k (alKeys rest) && alNodup rest

/-! ## The deep merge `_update_terms` (sections.py lines 401-421), value level

The Python function deep-copies `base` on entry (line 403) and returns the
copy; every write in the loop targets that copy, so as a value transformer it
is a pure function of its two arguments.  The recursive call
`_update_terms(base[key].terms, value.terms)` at line 419 discards its result,
and the callee again deep-copies its own `base` argument, so that call has no
effect at all: the merged term keeps the base term's children unchanged.
The store-level model `updateTermsS` below embeds the call verbatim and the
theorem `updateTermsS_value` proves this value-level function is exactly what
the stored result contains. -/

/-- Merge of the `origin` lists: derived origins are appended when absent. -/
def mergeOrigin (base other : List String) : List String :=
  other.foldl (fun acc o => if strMem o acc then acc else acc ++ [o]) base

/-- Merge of two attribute records: `base.attrs.update(other.attrs)` plus the
origin merge (sections.py lines 414-418). -/
def mergeAttrs (base other : ItemAttrs) : ItemAttrs :=
  ⟨alUpdate base.pairs other.pairs, mergeOrigin base.origin other.origin⟩

/-- The per-term update performed in the `else` branch of `_update_terms`:
help and `raw_help` are overridden when the derived help is nonempty, the
attributes are merged, and the children are left unchanged (the recursive
call's result is discarded by the source). -/
def mergeEntry (bt v : ItemTerm) : ItemTerm :=
  .mk bt.name
    (mergeAttrs bt.attrs v.attrs)
    bt.terms
    (if v.help = "" then bt.help else v.help)
    (if v.help = "" then bt.rawHelp else v.rawHelp)

/-- Value-level `_update_terms`: fold over the derived entries, inserting the
absent ones and merging the common ones with `mergeEntry`. -/
def updateTerms : TermMap → TermMap → TermMap
  | base, [] => base
  | base, (k, v) :: rest =>
    match alGet base k with
    | none => updateTerms (alSet base k v) rest
    | some bt => updateTerms (alSet base k (mergeEntry bt v)) rest

/-- Modelled from the spec: the deep-merge rule as §4.2 of the specification
states it — identical to `updateTerms` except that the merged term's children
are themselves deep-merged recursively.  Used only to compare the code's
behaviour against the specified one. -/
def specUpdateTerms : TermMap → TermMap → TermMap
  | base, [] => base
  | base, (k, v) :: rest =>
    match alGet base k with
    | none => specUpdateTerms (alSet base k v) rest
    | some bt =>
        let merged : ItemTerm :=
          .mk bt.name
            (mergeAttrs bt.attrs v.attrs)
            (specUpdateTerms bt.terms v.terms)
            (if v.help = "" then bt.help else v.help)
            (if v.help = "" then bt.rawHelp else v.rawHelp)
        specUpdateTerms (alSet base k merged) rest
termination_by _ other => sizeOf other
decreasing_by
  all_goals simp_wf
  all_goals (cases v; simp [ItemTerm.terms]; omega)

/-! ## Lemmas about the ordered-dict operations -/

theorem alGet_append_single {κ α : Type} [DecidableEq κ] (m : List (κ × α)) (k : κ) (v : α)
    (h : alGet m k = none) : alGet (m ++ [(k, v)]) k = some v := by
  induction m with
  | nil => simp [alGet]
  | cons p rest ih =>
    obtain ⟨k', v'⟩ := p
    by_cases hk : k' = k
    · simp [alGet, hk] at h
    · simp [alGet, hk] at h ⊢
      exact ih h

theorem alGet_append_single_ne {κ α : Type} [DecidableEq κ] (m : List (κ × α)) (k k' : κ) (v : α)
    (h : k' ≠ k) : alGet (m ++ [(k, v)]) k' = alGet m k' := by
  induction m with
  | nil => simp [alGet, Ne.symm h]
  | cons p rest ih =>
    obtain ⟨k1, v1⟩ := p
    by_cases hk : k1 = k'
    · simp [alGet, hk]
    · simp [alGet, hk, ih]

theorem alGet_alReplace_self {κ α : Type} [DecidableEq κ] (m : List (κ × α)) (k : κ) (v : α)
    (h : (alGet m k).isSome = true) : alGet (alReplace k v m) k = some v := by
  induction m with
  | nil => simp [alGet] at h
  | cons p rest ih =>
    obtain ⟨k1, v1⟩ := p
    by_cases hk : k1 = k
    · subst hk
      simp [alReplace, alGet]
    · simp [alGet, hk] at h
      simp [alReplace, alGet, hk]
      exact ih h

theorem alGet_alReplace_ne {κ α : Type} [DecidableEq κ] (m : List (κ × α)) (k k' : κ) (v : α)
    (h : k' ≠ k) : alGet (alReplace k v m) k' = alGet m k' := by
  induction m with
  | nil => simp [alReplace]
  | cons p rest ih =>
    obtain ⟨k1, v1⟩ := p
    by_cases hk : k1 = k
    · subst hk
      simp [alReplace, alGet, Ne.symm h, ih]
    · by_cases hk' : k1 = k'
      · simp [alReplace, alGet, hk, hk', h]
      · simp [alReplace, alGet, hk, hk', ih]

theorem alGet_alSet_self {κ α : Type} [DecidableEq κ] (m : List (κ × α)) (k : κ) (v : α) :
    alGet (alSet m k v) k = some v := by
  unfold alSet
  cases hg : alGet m k with
  | none => simp [hg, alGet_append_single m k v hg]
  | some w =>
    have hs : (alGet m k).isSome = true := by rw [hg]; rfl
    simp [hg, alGet_alReplace_self m k v hs]

theorem alGet_alSet_ne {κ α : Type} [DecidableEq κ] (m : List (κ × α)) (k k' : κ) (v : α)
    (h : k' ≠ k) : alGet (alSet m k v) k' = alGet m k' := by
  unfold alSet
  cases hg : alGet m k with
  | none => simp [alGet_append_single_ne m k k' v h]
  | some w => simp [alGet_alReplace_ne m k k' v h]

theorem alGet_of_strMem_false {α : Type} (m : List (String × α)) (k : String)
    (h : strMem k (alKeys m) = false) : alGet m k = none := by
  induction m with
  | nil => rfl
  | cons p rest ih =>
    obtain ⟨k1, v1⟩ := p
    simp [alKeys, strMem] at h
    simp [alGet, h.1, ih (by simpa [alKeys] using h.2)]

theorem alGet_alUpdate {α : Type} (b o : List (String × α)) (a : String)
    (hn : alNodup o = true) :
    alGet (alUpdate b o) a = optOr (alGet o a) (alGet b a) := by
  induction o generalizing b with
  | nil => simp [alUpdate, alGet, optOr]
  | cons p rest ih =>
    obtain ⟨k, v⟩ := p
    simp only [alNodup, Bool.and_eq_true, Bool.not_eq_true'] at hn
    have hstep : alUpdate b ((k, v) :: rest) = alUpdate (alSet b k v) rest := rfl
    rw [hstep, ih (alSet b k v) hn.2]
    by_cases hak : k = a
    · subst hak
      have hr : alGet rest k = none := alGet_of_strMem_false rest k hn.1
      simp [alGet, hr, optOr, alGet_alSet_self]
    · simp [alGet, hak, optOr, alGet_alSet_ne b k a v (fun hh => hak hh.symm)]

theorem alReplace_of_strMem_false {α : Type} (m : List (String × α)) (k : String) (v : α)
    (h : strMem k (alKeys m) = false) : alReplace k v m = m := by
  induction m with
  | nil => rfl
  | cons p rest ih =>
    obtain ⟨k1, v1⟩ := p
    simp [alKeys, strMem] at h
    simp [alReplace, h.1, ih (by simpa [alKeys] using h.2)]

theorem strMem_of_mem {α : Type} (m : List (String × α)) (k : String) (v : α)
    (hm : (k, v) ∈ m) : strMem k (alKeys m) = true := by
  induction m with
  | nil => cases hm
  | cons p rest ih =>
    obtain ⟨k1, v1⟩ := p
    rcases List.mem_cons.mp hm with heq | hmem
    · obtain ⟨h1, _⟩ := Prod.mk.injEq .. ▸ heq.symm
      simp [alKeys, strMem, h1]
    · have := ih hmem
      simp [alKeys, strMem] at this ⊢
      exact Or.inr this

theorem alGet_of_mem_nodup {α : Type} (m : List (String × α)) (k : String) (v : α)
    (hn : alNodup m = true) (hm : (k, v) ∈ m) : alGet m k = some v := by
  induction m with
  | nil => cases hm
  | cons p rest ih =>
    obtain ⟨k1, v1⟩ := p
    simp only [alNodup, Bool.and_eq_true, Bool.not_eq_true'] at hn
    rcases List.mem_cons.mp hm with heq | hmem
    · obtain ⟨h1, h2⟩ := Prod.mk.injEq .. ▸ heq.symm
      simp [alGet, h1, h2]
    · by_cases hk : k1 = k
      · exfalso
        subst hk
        rw [strMem_of_mem rest k1 v hmem] at hn
        exact absurd hn.1 (by simp)
      · simp [alGet, hk, ih hn.2 hmem]

theorem alSet_self_of_mem {α : Type} (m : List (String × α)) (k : String) (v : α)
    (hn : alNodup m = true) (hget : alGet m k = some v) : alSet m k v = m := by
  unfold alSet
  rw [hget]
  simp only [Option.isSome_some, if_pos]
  induction m with
  | nil => simp [alGet] at hget
  | cons p rest ih =>
    obtain ⟨k1, v1⟩ := p
    simp only [alNodup, Bool.and_eq_true, Bool.not_eq_true'] at hn
    by_cases hk : k1 = k
    · subst hk
      simp [alGet] at hget
      subst hget
      simp [alReplace, alReplace_of_strMem_false rest k1 v1 hn.1]
    · simp [alGet, hk] at hget
      simp [alReplace, hk, ih hn.2 hget]

/-! ## Top-level behaviour of `_update_terms` -/

theorem updateTerms_alGet_of_absent (base other : TermMap) (k : String)
    (h : alGet other k = none) :
    alGet (updateTerms base other) k = alGet base k := by
  induction other generalizing base with
  | nil => rfl
  | cons p rest ih =>
    obtain ⟨k', v⟩ := p
    have hk : k' ≠ k := by
      intro hh
      simp [alGet, hh] at h
    have hr : alGet rest k = none := by simpa [alGet, hk] using h
    cases hb : alGet base k' with
    | none =>
      rw [show updateTerms base ((k', v) :: rest) = updateTerms (alSet base k' v) rest by
            simp [updateTerms, hb]]
      rw [ih (alSet base k' v) hr, alGet_alSet_ne base k' k v (fun hh => hk hh.symm)]
    | some bt =>
      rw [show updateTerms base ((k', v) :: rest)
            = updateTerms (alSet base k' (mergeEntry bt v)) rest by
            simp [updateTerms, hb]]
      rw [ih _ hr, alGet_alSet_ne base k' k _ (fun hh => hk hh.symm)]

theorem updateTerms_alGet_of_common (base other : TermMap) (k : String) (bt dt : ItemTerm)
    (hb : alGet base k = some bt) (ho : alGet other k = some dt)
    (hn : alNodup other = true) :
    alGet (updateTerms base other) k = some (mergeEntry bt dt) := by
  induction other generalizing base bt with
  | nil => simp [alGet] at ho
  | cons p rest ih =>
    obtain ⟨k', v⟩ := p
    simp only [alNodup, Bool.and_eq_true, Bool.not_eq_true'] at hn
    by_cases hk : k' = k
    · subst hk
      have hv : v = dt := by simpa [alGet] using ho
      subst hv
      have hr : alGet rest k' = none := alGet_of_strMem_false rest k' hn.1
      rw [show updateTerms base ((k', v) :: rest)
            = updateTerms (alSet base k' (mergeEntry bt v)) rest by
            simp [updateTerms, hb]]
      rw [updateTerms_alGet_of_absent _ rest k' hr, alGet_alSet_self]
    · have ho' : alGet rest k = some dt := by simpa [alGet, hk] using ho
      cases hb' : alGet base k' with
      | none =>
        rw [show updateTerms base ((k', v) :: rest) = updateTerms (alSet base k' v) rest by
              simp [updateTerms, hb']]
        exact ih _ bt (by rw [alGet_alSet_ne base k' k v (fun hh => hk hh.symm)]; exact hb)
          ho' hn.2
      | some bt' =>
        rw [show updateTerms base ((k', v) :: rest)
              = updateTerms (alSet base k' (mergeEntry bt' v)) rest by
              simp [updateTerms, hb']]
        exact ih _ bt (by rw [alGet_alSet_ne base k' k _ (fun hh => hk hh.symm)]; exact hb)
          ho' hn.2

/-! ## Well-formedness of term maps

Term maps produced by the Python parser are dicts, so keys never repeat at
any level; these Boolean predicates record that invariant. -/

mutual
def wfTermB : ItemTerm → Bool
  | .mk _ a ts _ _ => alNodup a.pairs && alNodup ts && wfTermsB ts
def wfTermsB : TermMap → Bool
  | [] => true
  | (_, t) :: rest => wfTermB t && wfTermsB rest
end

/-- A term map has unique keys and well-formed entries. -/
def wfTermMapB (m : TermMap) : Bool := alNodup m && wfTermsB m

theorem wfTermsB_mem (m : TermMap) (k : String) (t : ItemTerm)
    (h : wfTermsB m = true) (hm : (k, t) ∈ m) : wfTermB t = true := by
  induction m with
  | nil => cases hm
  | cons p rest ih =>
    obtain ⟨k1, t1⟩ := p
    simp only [wfTermsB, Bool.and_eq_true] at h
    rcases List.mem_cons.mp hm with heq | hmem
    · obtain ⟨-, h2⟩ := Prod.mk.injEq .. ▸ heq.symm
      exact h2 ▸ h.1
    · exact ih h.2 hmem

theorem wfTermB_attrs (t : ItemTerm) (h : wfTermB t = true) :
    alNodup t.attrs.pairs = true := by
  cases t with
  | mk n a ts hh rh =>
    simp only [wfTermB, Bool.and_eq_true] at h
    exact h.1.1

/-! ## Self-merge (idempotence) of `_update_terms` -/

theorem strMem_of_mem_list (x : String) (l : List String) (h : x ∈ l) :
    strMem x l = true := by
  induction l with
  | nil => cases h
  | cons y rest ih =>
    rcases List.mem_cons.mp h with heq | hmem
    · simp [strMem, heq]
    · simp [strMem, ih hmem]

theorem mergeOrigin_self (o : List String) : mergeOrigin o o = o := by
  have haux : ∀ (l acc : List String), (∀ x ∈ l, strMem x acc = true) →
      l.foldl (fun acc o => if strMem o acc then acc else acc ++ [o]) acc = acc := by
    intro l
    induction l with
    | nil => intro acc _; rfl
    | cons x rest ih =>
      intro acc h
      simp only [List.foldl, h x (List.mem_cons_self x rest), if_pos]
      exact ih acc (fun y hy => h y (List.mem_cons_of_mem _ hy))
  exact haux o o (fun x hx => strMem_of_mem_list x o hx)

theorem alUpdate_id {α : Type} (l acc : List (String × α)) (hacc : alNodup acc = true)
    (h : ∀ pr ∈ l, alGet acc pr.1 = some pr.2) : alUpdate acc l = acc := by
  induction l with
  | nil => rfl
  | cons p rest ih =>
    obtain ⟨k, v⟩ := p
    have hstep : alUpdate acc ((k, v) :: rest) = alUpdate (alSet acc k v) rest := rfl
    rw [hstep, alSet_self_of_mem acc k v hacc (h (k, v) (List.mem_cons_self _ _))]
    exact ih (fun pr hpr => h pr (List.mem_cons_of_mem _ hpr))

theorem alUpdate_self {α : Type} (p : List (String × α)) (hn : alNodup p = true) :
    alUpdate p p = p :=
  alUpdate_id p p hn (fun pr hpr => alGet_of_mem_nodup p pr.1 pr.2 hn hpr)

theorem mergeAttrs_self (a : ItemAttrs) (hn : alNodup a.pairs = true) :
    mergeAttrs a a = a := by
  obtain ⟨p, o⟩ := a
  simp only [mergeAttrs, mergeOrigin_self]
  simp only at hn
  rw [alUpdate_self p hn]

theorem mergeEntry_self (t : ItemTerm) (hn : alNodup t.attrs.pairs = true) :
    mergeEntry t t = t := by
  cases t with
  | mk n a ts h rh =>
    simp only [ItemTerm.attrs] at hn
    simp [mergeEntry, ItemTerm.name, ItemTerm.attrs, ItemTerm.terms, ItemTerm.help,
      ItemTerm.rawHelp, mergeAttrs_self a hn]

theorem updateTerms_self_aux (l s : TermMap) (hs : alNodup s = true)
    (h : ∀ pr ∈ l, alGet s pr.1 = some pr.2 ∧ alNodup pr.2.attrs.pairs = true) :
    updateTerms s l = s := by
  induction l with
  | nil => rfl
  | cons p rest ih =>
    obtain ⟨k, v⟩ := p
    have h1 := h (k, v) (List.mem_cons_self _ _)
    rw [show updateTerms s ((k, v) :: rest)
          = updateTerms (alSet s k (mergeEntry v v)) rest by
          simp [updateTerms, h1.1]]
    rw [mergeEntry_self v h1.2, alSet_self_of_mem s k v hs h1.1]
    exact ih (fun pr hpr => h pr (List.mem_cons_of_mem _ hpr))

/-- Merging a well-formed term map with itself yields the same map. -/
theorem updateTerms_self (s : TermMap) (h : wfTermMapB s = true) :
    updateTerms s s = s := by
  simp only [wfTermMapB, Bool.and_eq_true] at h
  refine updateTerms_self_aux s s h.1 ?_
  intro pr hpr
  refine ⟨alGet_of_mem_nodup s pr.1 pr.2 h.1 hpr, ?_⟩
  exact wfTermB_attrs pr.2 (wfTermsB_mem s pr.1 pr.2 h.2 hpr)

/-! ## Claim C3 -/

/-- C3: for every item-tree merge and term name, a name present only in the
base survives unchanged; a name present in both yields a merged term whose
help is the derived help when nonempty (otherwise base help), and whose
attribute set is the union of both sides with derived values taking
precedence on key collision. -/
theorem c3_item_merge_rules (base other : TermMap) (k : String) :
    (alGet other k = none →
      alGet (updateTerms base other) k = alGet base k)
    ∧ (∀ bt dt : ItemTerm, alGet base k = some bt → alGet other k = some dt →
        alNodup other = true → alNodup dt.attrs.pairs = true →
        ∃ mt, alGet (updateTerms base other) k = some mt
          ∧ mt.help = (if dt.help = "" then bt.help else dt.help)
          ∧ (∀ a, alGet mt.attrs.pairs a
              = optOr (alGet dt.attrs.pairs a) (alGet bt.attrs.pairs a))) := by
  constructor
  · exact updateTerms_alGet_of_absent base other k
  · intro bt dt hb ho hn hna
    refine ⟨mergeEntry bt dt,
      updateTerms_alGet_of_common base other k bt dt hb ho hn, rfl, ?_⟩
    intro a
    exact alGet_alUpdate bt.attrs.pairs dt.attrs.pairs a hna

/-- Scenario-5 base tree: `arg1` carrying `type=int`. -/
def c3base : TermMap :=
  [("arg1", .mk "arg1" ⟨[("type", .vstr "int")], ["type"]⟩ [] "help1" ["help1"])]

/-- Scenario-5 derived tree: `arg1` carrying only the bare flag `choices`. -/
def c3other : TermMap :=
  [("arg1", .mk "arg1" ⟨[("choices", .vtrue)], ["choices"]⟩ [] "help11" ["help11"])]

/-- Witness for C3 at the spec's scenario 5: the merged `arg1` keeps
`type = "int"` from the base and gains `choices = True` from the derived
side, with the derived help. -/
theorem c3_item_merge_rules_witness :
    ∃ mt : ItemTerm, alGet (updateTerms c3base c3other) "arg1" = some mt
      ∧ mt.help = "help11"
      ∧ alGet mt.attrs.pairs "choices" = some .vtrue
      ∧ alGet mt.attrs.pairs "type" = some (.vstr "int") := by
  obtain ⟨-, h2⟩ := c3_item_merge_rules c3base c3other "arg1"
  obtain ⟨mt, hm, hh, ha⟩ :=
    h2 (.mk "arg1" ⟨[("type", .vstr "int")], ["type"]⟩ [] "help1" ["help1"])
      (.mk "arg1" ⟨[("choices", .vtrue)], ["choices"]⟩ [] "help11" ["help11"])
      rfl rfl rfl rfl
  refine ⟨mt, hm, ?_, ?_, ?_⟩
  · rw [hh]
    simp [ItemTerm.help]
  · rw [ha "choices"]
    rfl
  · rw [ha "type"]
    rfl

/-! ## Claim C1 -/

/-- A base-only grandchild term. -/
def c1xterm : ItemTerm := .mk "x" ⟨[], []⟩ [] "xhelp" ["xhelp"]

/-- A derived-only grandchild term. -/
def c1yterm : ItemTerm := .mk "y" ⟨[], []⟩ [] "yhelp" ["yhelp"]

/-- Base tree whose term `a` has the single child `x`. -/
def c1base : TermMap :=
  [("a", .mk "a" ⟨[], []⟩ [("x", c1xterm)] "basehelp" ["basehelp"])]

/-- Derived tree whose term `a` has the single child `y`. -/
def c1other : TermMap :=
  [("a", .mk "a" ⟨[], []⟩ [("y", c1yterm)] "" [])]

/-- C1 (behaviour at the failing input): `_update_terms` leaves the base
term's children untouched — the derived-only child `y` is dropped — whereas
the spec's recursive deep-merge rule (`specUpdateTerms`) would insert it.
The recursive call at sections.py line 419 discards its result while its
callee deep-copies its own argument (line 403), so the call has no effect. -/
theorem c1_children_not_merged :
    alGet (updateTerms c1base c1other) "a"
        = some (.mk "a" ⟨[], []⟩ [("x", c1xterm)] "basehelp" ["basehelp"])
    ∧ alGet (specUpdateTerms c1base c1other) "a"
        = some (.mk "a" ⟨[], []⟩ [("x", c1xterm), ("y", c1yterm)] "basehelp" ["basehelp"])
    ∧ (alGet (updateTerms c1base c1other) "a").map (fun t => alKeys t.terms)
        ≠ (alGet (specUpdateTerms c1base c1other) "a").map (fun t => alKeys t.terms) := by
  have h2 : alGet (specUpdateTerms c1base c1other) "a"
      = some (.mk "a" ⟨[], []⟩ [("x", c1xterm), ("y", c1yterm)] "basehelp" ["basehelp"]) := by
    simp [specUpdateTerms, c1base, c1other, alGet, alSet, alReplace, alUpdate,
      mergeAttrs, mergeOrigin, ItemTerm.name, ItemTerm.attrs, ItemTerm.terms,
      ItemTerm.help, ItemTerm.rawHelp]
  have h1 : alGet (updateTerms c1base c1other) "a"
      = some (.mk "a" ⟨[], []⟩ [("x", c1xterm)] "basehelp" ["basehelp"]) := rfl
  refine ⟨h1, h2, ?_⟩
  rw [h1, h2]
  decide

/-! ## Object-store model of `_update_terms`

Python passes the term trees by reference and `_update_terms` mutates objects
in place; the deep copy at sections.py line 403 redirects every write to a
fresh object.  To make that observable, the function is modelled over an
explicit store of heap objects: `updateTermsS` reads the value of the `base`
pointer, allocates a fresh address for the deep copy, performs the loop's
writes on that address, and executes the recursive call of line 419 verbatim
(on a pointer into the copy), discarding its resulting pointer exactly as the
source discards its return value. -/

/-- A heap of term-map objects with an allocation counter. -/
structure Store where
  next : Nat
  mem : List (Nat × TermMap)
deriving Repr

/-- A pointer: a root object address plus a path of term names; each path
step descends into that entry's `terms`. -/
structure Ptr where
  addr : Nat
  path : List String
deriving Repr

/-- Read a sub-tree of a term map along a path of term names. -/
def readPath : TermMap → List String → Option TermMap
  | m, [] => some m
  | m, k :: rest =>
    match alGet m k with
    | some t => readPath t.terms rest
    | none => none

/-- Dereference a pointer in a store. -/
def readPtr (s : Store) (p : Ptr) : Option TermMap :=
  match alGet s.mem p.addr with
  | some m => readPath m p.path
  | none => none

/-- Every allocated address is below the allocation counter. -/
def storeWf (s : Store) : Prop :=
  ∀ pr ∈ s.mem, pr.1 < s.next

mutual
/-- Store-level `_update_terms`: dereference `base`, deep-copy it to a fresh
address (line 403), run the update loop on the copy, and return a pointer to
the copy (line 421). -/
def updateTermsS (s : Store) (p : Ptr) (other : TermMap) : Store × Option Ptr :=
  match readPtr s p with
  | none => (s, none)
  | some v0 =>
      let a := s.next
      let s1 : Store := ⟨a + 1, (a, v0) :: s.mem⟩
      (updateTermsLoopS s1 a other, some ⟨a, []⟩)
termination_by 2 * sizeOf other + 1

/-- The `for key, value in other.items()` loop of `_update_terms`, acting on
the object at address `a`.  The recursive call on the children (line 419)
returns a pointer that is discarded, exactly as in the source. -/
def updateTermsLoopS (s : Store) (a : Nat) : TermMap → Store
  | [] => s
  | (k, v) :: rest =>
    match alGet s.mem a with
    | none => s
    | some m =>
      match alGet m k with
      | none =>
          let s' : Store := ⟨s.next, alSet s.mem a (alSet m k v)⟩
          updateTermsLoopS s' a rest
      | some bt =>
          let s' : Store := ⟨s.next, alSet s.mem a (alSet m k (mergeEntry bt v))⟩
          let s'' := (updateTermsS s' ⟨a, [k]⟩ v.terms).1
          updateTermsLoopS s'' a rest
termination_by l => 2 * sizeOf l
decreasing_by
  all_goals simp_wf
  all_goals (cases t; simp [ItemTerm.terms]; omega)
end

/-- Entries of `alReplace` have the replaced key or were already present. -/
theorem mem_alReplace {κ α : Type} [DecidableEq κ] (m : List (κ × α)) (k : κ) (v : α) :
    ∀ pr ∈ alReplace k v m, pr.1 = k ∨ pr ∈ m := by
  induction m with
  | nil => intro pr hpr; cases hpr
  | cons q rest ih =>
    obtain ⟨k1, v1⟩ := q
    intro pr hpr
    by_cases hk : k1 = k
    · simp only [alReplace, if_pos hk] at hpr
      rcases List.mem_cons.mp hpr with heq | hmem
      · exact Or.inl (by rw [heq])
      · rcases ih pr hmem with h | h
        · exact Or.inl h
        · exact Or.inr (List.mem_cons_of_mem _ h)
    · simp only [alReplace, if_neg hk] at hpr
      rcases List.mem_cons.mp hpr with heq | hmem
      · exact Or.inr (List.mem_cons.mpr (Or.inl heq))
      · rcases ih pr hmem with h | h
        · exact Or.inl h
        · exact Or.inr (List.mem_cons_of_mem _ h)

/-- An `alSet` only has entries whose key is the set key or which were
already present. -/
theorem mem_alSet {κ α : Type} [DecidableEq κ] (m : List (κ × α)) (k : κ) (v : α) :
    ∀ pr ∈ alSet m k v, pr.1 = k ∨ pr ∈ m := by
  intro pr hpr
  unfold alSet at hpr
  by_cases hg : (alGet m k).isSome = true
  · rw [if_pos hg] at hpr
    exact mem_alReplace m k v pr hpr
  · rw [if_neg hg] at hpr
    rcases List.mem_append.mp hpr with h | h
    · exact Or.inr h
    · have : pr = (k, v) := by simpa using h
      exact Or.inl (by rw [this])

/-- An element found by `alGet` is a member. -/
theorem mem_of_alGet {κ α : Type} [DecidableEq κ] (m : List (κ × α)) (k : κ) (v : α)
    (h : alGet m k = some v) : (k, v) ∈ m := by
  induction m with
  | nil => cases h
  | cons q rest ih =>
    obtain ⟨k1, v1⟩ := q
    by_cases hk : k1 = k
    · subst hk
      simp [alGet] at h
      subst h
      exact List.mem_cons_self _ _
    · simp [alGet, hk] at h
      exact List.mem_cons_of_mem _ (ih h)

theorem storeWf_alSet (s : Store) (a : Nat) (val : TermMap) (hw : storeWf s)
    (ha : a < s.next) : storeWf ⟨s.next, alSet s.mem a val⟩ := by
  intro pr hpr
  rcases mem_alSet s.mem a val pr hpr with h | h
  · simpa [h] using ha
  · exact hw pr h

mutual
/-- Frame property of store-level `_update_terms`: the allocation counter
only grows, well-formedness is preserved, and every previously allocated
object is untouched. -/
theorem frameS (s : Store) (p : Ptr) (o : TermMap) (hw : storeWf s) :
    s.next ≤ (updateTermsS s p o).1.next
    ∧ storeWf (updateTermsS s p o).1
    ∧ ∀ b, b < s.next → alGet (updateTermsS s p o).1.mem b = alGet s.mem b := by
  cases hr : readPtr s p with
  | none =>
    rw [show (updateTermsS s p o).1 = s by simp [updateTermsS, hr]]
    exact ⟨Nat.le_refl _, hw, fun b _ => rfl⟩
  | some v0 =>
    have hred : (updateTermsS s p o).1
        = updateTermsLoopS ⟨s.next + 1, (s.next, v0) :: s.mem⟩ s.next o := by
      simp [updateTermsS, hr]
    have hw1 : storeWf ⟨s.next + 1, (s.next, v0) :: s.mem⟩ := by
      intro pr hpr
      rcases List.mem_cons.mp hpr with heq | hmem
      · simp [heq]
      · exact Nat.lt_succ_of_lt (hw pr hmem)
    have hfr := frameLoop ⟨s.next + 1, (s.next, v0) :: s.mem⟩ s.next o hw1
      (Nat.lt_succ_self _)
    rw [hred]
    refine ⟨Nat.le_trans (Nat.le_succ _) hfr.1, hfr.2.1, ?_⟩
    intro b hb
    rw [hfr.2.2 b (Nat.lt_succ_of_lt hb) (Nat.ne_of_lt hb)]
    simp [alGet, Ne.symm (Nat.ne_of_lt hb)]
termination_by 2 * sizeOf o + 1

theorem frameLoop (s : Store) (a : Nat) (l : TermMap) (hw : storeWf s)
    (ha : a < s.next) :
    s.next ≤ (updateTermsLoopS s a l).next
    ∧ storeWf (updateTermsLoopS s a l)
    ∧ ∀ b, b < s.next → b ≠ a →
        alGet (updateTermsLoopS s a l).mem b = alGet s.mem b := by
  match l with
  | [] =>
    rw [show updateTermsLoopS s a [] = s by simp [updateTermsLoopS]]
    exact ⟨Nat.le_refl _, hw, fun b _ _ => rfl⟩
  | (k, v) :: rest =>
    cases hm : alGet s.mem a with
    | none =>
      rw [show updateTermsLoopS s a ((k, v) :: rest) = s by
            simp [updateTermsLoopS, hm]]
      exact ⟨Nat.le_refl _, hw, fun b _ _ => rfl⟩
    | some m =>
      cases hk : alGet m k with
      | none =>
        have hred : updateTermsLoopS s a ((k, v) :: rest)
            = updateTermsLoopS ⟨s.next, alSet s.mem a (alSet m k v)⟩ a rest := by
          simp [updateTermsLoopS, hm, hk]
        have hw' := storeWf_alSet s a (alSet m k v) hw ha
        have hfr := frameLoop ⟨s.next, alSet s.mem a (alSet m k v)⟩ a rest hw' ha
        rw [hred]
        refine ⟨hfr.1, hfr.2.1, ?_⟩
        intro b hb hba
        rw [hfr.2.2 b hb hba]
        exact alGet_alSet_ne s.mem a b _ hba
      | some bt =>
        have hw' := storeWf_alSet s a (alSet m k (mergeEntry bt v)) hw ha
        have hfrS := frameS ⟨s.next, alSet s.mem a (alSet m k (mergeEntry bt v))⟩
          ⟨a, [k]⟩ v.terms hw'
        have hw'' := hfrS.2.1
        have ha'' : a < (updateTermsS ⟨s.next, alSet s.mem a (alSet m k (mergeEntry bt v))⟩
            ⟨a, [k]⟩ v.terms).1.next := Nat.lt_of_lt_of_le ha hfrS.1
        have hfr := frameLoop
          (updateTermsS ⟨s.next, alSet s.mem a (alSet m k (mergeEntry bt v))⟩
            ⟨a, [k]⟩ v.terms).1 a rest hw'' ha''
        have hred : updateTermsLoopS s a ((k, v) :: rest)
            = updateTermsLoopS
                (updateTermsS ⟨s.next, alSet s.mem a (alSet m k (mergeEntry bt v))⟩
                  ⟨a, [k]⟩ v.terms).1 a rest := by
          simp [updateTermsLoopS, hm, hk]
        rw [hred]
        refine ⟨Nat.le_trans hfrS.1 hfr.1, hfr.2.1, ?_⟩
        intro b hb hba
        rw [hfr.2.2 b (Nat.lt_of_lt_of_le hb hfrS.1) hba,
          hfrS.2.2 b hb]
        exact alGet_alSet_ne s.mem a b _ hba
termination_by 2 * sizeOf l
decreasing_by
  all_goals simp_wf
  all_goals (cases v; simp [ItemTerm.terms]; omega)
end

/-- The value stored at the copy address after the loop is exactly what the
value-level `updateTerms` computes: the recursive child merges of line 419
never touch the copy. -/
theorem refineLoop (l : TermMap) : ∀ (s : Store) (a : Nat) (m : TermMap),
    storeWf s → a < s.next → alGet s.mem a = some m →
    alGet (updateTermsLoopS s a l).mem a = some (updateTerms m l) := by
  induction l with
  | nil =>
    intro s a m _ _ hm
    rw [show updateTermsLoopS s a [] = s by simp [updateTermsLoopS]]
    exact hm
  | cons p rest ih =>
    obtain ⟨k, v⟩ := p
    intro s a m hw ha hm
    cases hk : alGet m k with
    | none =>
      have hred : updateTermsLoopS s a ((k, v) :: rest)
          = updateTermsLoopS ⟨s.next, alSet s.mem a (alSet m k v)⟩ a rest := by
        simp [updateTermsLoopS, hm, hk]
      have hw' := storeWf_alSet s a (alSet m k v) hw ha
      rw [hred, ih ⟨s.next, alSet s.mem a (alSet m k v)⟩ a (alSet m k v) hw' ha
        (alGet_alSet_self s.mem a _)]
      rw [show updateTerms m ((k, v) :: rest) = updateTerms (alSet m k v) rest by
            simp [updateTerms, hk]]
    | some bt =>
      have hred : updateTermsLoopS s a ((k, v) :: rest)
          = updateTermsLoopS
              (updateTermsS ⟨s.next, alSet s.mem a (alSet m k (mergeEntry bt v))⟩
                ⟨a, [k]⟩ v.terms).1 a rest := by
        simp [updateTermsLoopS, hm, hk]
      have hw' := storeWf_alSet s a (alSet m k (mergeEntry bt v)) hw ha
      have hfrS := frameS ⟨s.next, alSet s.mem a (alSet m k (mergeEntry bt v))⟩
        ⟨a, [k]⟩ v.terms hw'
      have hget : alGet (updateTermsS ⟨s.next, alSet s.mem a (alSet m k (mergeEntry bt v))⟩
          ⟨a, [k]⟩ v.terms).1.mem a = some (alSet m k (mergeEntry bt v)) := by
        rw [hfrS.2.2 a ha]
        exact alGet_alSet_self s.mem a _
      rw [hred, ih _ a (alSet m k (mergeEntry bt v)) hfrS.2.1
        (Nat.lt_of_lt_of_le ha hfrS.1) hget]
      rw [show updateTerms m ((k, v) :: rest)
            = updateTerms (alSet m k (mergeEntry bt v)) rest by
            simp [updateTerms, hk]]

/-- Store-level `_update_terms` returns a pointer to a fresh object holding
exactly the value computed by the value-level `updateTerms`. -/
theorem updateTermsS_value (s : Store) (p : Ptr) (o : TermMap) (v0 : TermMap)
    (hw : storeWf s) (hp : readPtr s p = some v0) :
    ∃ s' rp, updateTermsS s p o = (s', some rp)
      ∧ readPtr s' rp = some (updateTerms v0 o) := by
  have hred : updateTermsS s p o
      = (updateTermsLoopS ⟨s.next + 1, (s.next, v0) :: s.mem⟩ s.next o,
          some ⟨s.next, []⟩) := by
    simp [updateTermsS, hp]
  have hw1 : storeWf ⟨s.next + 1, (s.next, v0) :: s.mem⟩ := by
    intro pr hpr
    rcases List.mem_cons.mp hpr with heq | hmem
    · simp [heq]
    · exact Nat.lt_succ_of_lt (hw pr hmem)
  have hval := refineLoop o ⟨s.next + 1, (s.next, v0) :: s.mem⟩ s.next v0 hw1
    (Nat.lt_succ_self _) (by simp [alGet])
  refine ⟨_, _, hred, ?_⟩
  simp only [readPtr, hval, readPath]

/-! ## Claim C8 -/

/-- C8: an item-tree merge never mutates the base tree in place.  In the
store model: after `_update_terms` runs, the object graph reachable from the
base pointer is unchanged, and merging two different derived trees against
the same base produces two results that are each computed from the original
base value (`updateTerms v o2`), independent of the other merge.  This holds
because line 403 deep-copies `base` into a fresh object and every write of
the call tree targets freshly allocated addresses. -/
theorem c8_base_not_mutated (s : Store) (p : Ptr) (o1 o2 : TermMap) (v : TermMap)
    (hw : storeWf s) (hp : readPtr s p = some v) :
    readPtr (updateTermsS s p o1).1 p = some v
    ∧ (∃ s2 rp2, updateTermsS (updateTermsS s p o1).1 p o2 = (s2, some rp2)
        ∧ readPtr s2 rp2 = some (updateTerms v o2))
    ∧ (∃ s3 rp3, updateTermsS s p o2 = (s3, some rp3)
        ∧ readPtr s3 rp3 = some (updateTerms v o2)) := by
  have hfr := frameS s p o1 hw
  have hm0 : ∃ m0, alGet s.mem p.addr = some m0 ∧ readPath m0 p.path = some v := by
    unfold readPtr at hp
    cases hg : alGet s.mem p.addr with
    | none => rw [hg] at hp; cases hp
    | some m0 => rw [hg] at hp; exact ⟨m0, rfl, hp⟩
  obtain ⟨m0, hg0, hpath0⟩ := hm0
  have haddr : p.addr < s.next := hw (p.addr, m0) (mem_of_alGet s.mem p.addr m0 hg0)
  have hpres : readPtr (updateTermsS s p o1).1 p = some v := by
    unfold readPtr
    rw [hfr.2.2 p.addr haddr, hg0]
    exact hpath0
  refine ⟨hpres, ?_, ?_⟩
  · exact updateTermsS_value (updateTermsS s p o1).1 p o2 v hfr.2.1 hpres
  · exact updateTermsS_value s p o2 v hw hp

/-- A small concrete base tree living at address 0 of a one-object store. -/
def c8v : TermMap := [("arg1", .mk "arg1" ⟨[("type", .vstr "int")], ["type"]⟩ [] "h1" ["h1"])]

/-- Concrete derived tree number one. -/
def c8o1 : TermMap := [("arg1", .mk "arg1" ⟨[], []⟩ [] "h2" ["h2"])]

/-- Concrete derived tree number two. -/
def c8o2 : TermMap := [("arg2", .mk "arg2" ⟨[], []⟩ [] "h3" ["h3"])]

/-- Witness for C8 at a concrete store: the base object at address 0 is
unchanged by a merge, and a second merge with a different derived tree still
computes from the original base value. -/
theorem c8_base_not_mutated_witness :
    readPtr (updateTermsS ⟨1, [(0, c8v)]⟩ ⟨0, []⟩ c8o1).1 ⟨0, []⟩ = some c8v
    ∧ (∃ s2 rp2, updateTermsS (updateTermsS ⟨1, [(0, c8v)]⟩ ⟨0, []⟩ c8o1).1 ⟨0, []⟩ c8o2
          = (s2, some rp2)
        ∧ readPtr s2 rp2 = some (updateTerms c8v c8o2))
    ∧ (∃ s3 rp3, updateTermsS ⟨1, [(0, c8v)]⟩ ⟨0, []⟩ c8o2 = (s3, some rp3)
        ∧ readPtr s3 rp3 = some (updateTerms c8v c8o2)) := by
  have hw : storeWf ⟨1, [(0, c8v)]⟩ := by
    intro pr hpr
    simp at hpr
    rw [hpr]
    exact Nat.lt_succ_self 0
  exact c8_base_not_mutated ⟨1, [(0, c8v)]⟩ ⟨0, []⟩ c8o1 c8o2 c8v hw rfl

/-! ## Parsed section payloads and the annotation-level merge

`_update_annotation` (annotate.py lines 109-126) copies the base tree, then
for each derived section either adopts it verbatim (key absent from base, or
section name not in the registry) or dispatches to the section class's
`update_parsed`.  The default `SECTION_TYPES` registry of annotate.py is
modelled; the three merge behaviours are `SectionSummary.update_parsed`
(field-wise override when nonempty), `SectionItems.update_parsed`
(`_update_terms`) and the base `Section.update_parsed` (dict update, used by
all text sections). -/

/-- Model of `SummaryParsed`: the `short`/`long` record of a Summary section. -/
structure SummaryParsed where
  short : String
  long : String
deriving DecidableEq, Repr

/-- Model of `TextParsed`: the meta section name and the text lines.  The mapping
itself holds exactly the key `lines`; the name lives in `__diot__` meta. -/
structure TextParsed where
  name : Option String
  lines : List String
deriving DecidableEq, Repr

/-- Merge `SectionSummary.update_parsed`: derived `short`/`long` win only when
nonempty (sections.py lines 475-487). -/
def summaryUpdateParsed (base other : SummaryParsed) : SummaryParsed :=
  { short := if other.short = "" then base.short else other.short,
    long := if other.long = "" then base.long else other.long }

/-- The base `Section.update_parsed` on mapping payloads (sections.py lines
438-452): `deepcopy(base)` followed by `base.update(other)`.  A parsed text
section's only mapping key is `lines`, so the update replaces the lines
whole and keeps the base's meta name. -/
def textUpdateParsed (base other : TextParsed) : TextParsed :=
  { name := base.name, lines := other.lines }

/-- A parsed section result: summary record, item-term tree, or text lines. -/
inductive SectionParsed where
  | summary : SummaryParsed → SectionParsed
  | items : TermMap → SectionParsed
  | text : TextParsed → SectionParsed
deriving Repr

/-- The three builtin merge behaviours. -/
inductive SectionKind where
  | summary : SectionKind
  | items : SectionKind
  | text : SectionKind
deriving DecidableEq, Repr

/-- The default `SECTION_TYPES` registry of annotate.py, mapping a section
name to the merge behaviour of its section class. -/
def sectionKindOf : String → Option SectionKind
  | "Summary" => some .summary
  | "Input" => some .items
  | "Output" => some .items
  | "Envs" => some .items
  | "Args" => some .items
  | "Returns" => some .items
  | "Raises" => some .items
  | "Warns" => some .items
  | "Items" => some .items
  | "See Also" => some .text
  | "Notes" => some .text
  | "References" => some .text
  | "Examples" => some .text
  | "Todo" => some .text
  | "Text" => some .text
  | _ => none

/-- Dispatch of `update_parsed` by section kind.  A shape mismatch between
the registered kind and the stored payload (impossible for parsed trees)
would make the Python code fail on attribute access; it is modelled as
`none`. -/
def updateSection : SectionKind → SectionParsed → SectionParsed → Option SectionParsed
  | .summary, .summary b, .summary o => some (.summary (summaryUpdateParsed b o))
  | .items, .items b, .items o => some (.items (updateTerms b o))
  | .text, .text b, .text o => some (.text (textUpdateParsed b o))
  | _, _, _ => none

/-- An annotation tree: ordered mapping from section name to parsed result. -/
abbrev AnnoTree := List (String × SectionParsed)

/-- Merge `_update_annotation`: fold the derived sections over a copy of the base
tree, adopting sections that are new or unregistered and merging the rest. -/
def updateAnno (base other : AnnoTree) : Option AnnoTree :=
  other.foldlM
    (fun acc kv =>
      match sectionKindOf kv.1, alGet acc kv.1 with
      | some kind, some bv => (updateSection kind bv kv.2).map (fun nv => alSet acc kv.1 nv)
      | _, _ => some (alSet acc kv.1 kv.2))
    base

/-- A stored payload matches its registered section kind (and item trees are
well-formed).  True of every tree the parser produces. -/
def sectionShapeOk (name : String) (v : SectionParsed) : Bool :=
  match sectionKindOf name, v with
  | some .summary, .summary _ => true
  | some .items, .items m => wfTermMapB m
  | some .text, .text _ => true
  | none, _ => true
  | _, _ => false

/-- A well-formed annotation tree: unique section names, each with a payload
matching its registered kind. -/
def wfAnnoB (t : AnnoTree) : Bool :=
  alNodup t && t.all (fun kv => sectionShapeOk kv.1 kv.2)

theorem summaryUpdateParsed_self (b : SummaryParsed) : summaryUpdateParsed b b = b := by
  cases b
  simp [summaryUpdateParsed]

theorem textUpdateParsed_self (b : TextParsed) : textUpdateParsed b b = b := by
  cases b
  simp [textUpdateParsed]

theorem updateSection_self (name : String) (kind : SectionKind) (v : SectionParsed)
    (hk : sectionKindOf name = some kind) (hs : sectionShapeOk name v = true) :
    updateSection kind v v = some v := by
  cases kind with
  | summary =>
    cases v with
    | summary b => simp [updateSection, summaryUpdateParsed_self]
    | items m => simp [sectionShapeOk, hk] at hs
    | text t => simp [sectionShapeOk, hk] at hs
  | items =>
    cases v with
    | summary b => simp [sectionShapeOk, hk] at hs
    | items m =>
      have hwf : wfTermMapB m = true := by simpa [sectionShapeOk, hk] using hs
      simp [updateSection, updateTerms_self m hwf]
    | text t => simp [sectionShapeOk, hk] at hs
  | text =>
    cases v with
    | summary b => simp [sectionShapeOk, hk] at hs
    | items m => simp [sectionShapeOk, hk] at hs
    | text t => simp [updateSection, textUpdateParsed_self]

theorem updateAnno_self_aux (l acc : AnnoTree) (hacc : alNodup acc = true)
    (h : ∀ kv ∈ l, alGet acc kv.1 = some kv.2 ∧ sectionShapeOk kv.1 kv.2 = true) :
    updateAnno acc l = some acc := by
  induction l with
  | nil => rfl
  | cons kv rest ih =>
    obtain ⟨k, v⟩ := kv
    have h1 := h (k, v) (List.mem_cons_self _ _)
    cases hk : sectionKindOf k with
    | none =>
      have : updateAnno acc ((k, v) :: rest) = updateAnno (alSet acc k v) rest := by
        simp [updateAnno, List.foldlM_cons, hk]
      rw [this, alSet_self_of_mem acc k v hacc h1.1]
      exact ih (fun kv hkv => h kv (List.mem_cons_of_mem _ hkv))
    | some kind =>
      have hsec := updateSection_self k kind v hk h1.2
      have : updateAnno acc ((k, v) :: rest) = updateAnno (alSet acc k v) rest := by
        simp [updateAnno, List.foldlM_cons, hk, h1.1, hsec]
      rw [this, alSet_self_of_mem acc k v hacc h1.1]
      exact ih (fun kv hkv => h kv (List.mem_cons_of_mem _ hkv))

/-! ## Claim C7 -/

/-- C7: merging a parsed annotation tree with itself as both base and derived
yields that same tree.  The hypothesis `wfAnnoB` records what is true of
every tree the parser produces: section names are dict keys (unique), and
each stored payload matches its registered section kind. -/
theorem c7_merge_idempotent (t : AnnoTree) (h : wfAnnoB t = true) :
    updateAnno t t = some t := by
  simp only [wfAnnoB, Bool.and_eq_true, List.all_eq_true] at h
  refine updateAnno_self_aux t t h.1 ?_
  intro kv hkv
  exact ⟨alGet_of_mem_nodup t kv.1 kv.2 h.1 hkv, h.2 kv hkv⟩

/-- A small concrete parsed annotation tree. -/
def c7tree : AnnoTree :=
  [("Summary", .summary ⟨"short text", ""⟩),
   ("Envs", .items [("a", .mk "a" ⟨[("default", .vstr "1")], ["default"]⟩ [] "h" ["h"])]),
   ("Notes", .text ⟨some "Notes", ["note line"]⟩)]

/-- Witness for C7 at a concrete three-section annotation tree. -/
theorem c7_merge_idempotent_witness :
    wfAnnoB c7tree = true ∧ updateAnno c7tree c7tree = some c7tree :=
  ⟨rfl, c7_merge_idempotent c7tree rfl⟩

/-! ## Claim C4 -/

/-- C4 as stated is false: merging text sections replaces the lines whole,
so when the derived side is empty the merge still equals the derived side —
the claimed equivalence "merge equals derived exactly when derived is
non-empty" fails at an empty derived section. -/
theorem c4_text_merge_counterexample :
    ¬ ((textUpdateParsed ⟨some "Notes", ["a"]⟩ ⟨some "Notes", []⟩
          = (⟨some "Notes", []⟩ : TextParsed))
        ↔ (⟨some "Notes", []⟩ : TextParsed).lines ≠ []) := by
  intro h
  exact (h.mp rfl) rfl

/-- C4 amended: for text sections (same section name on both sides, as is
the case whenever `_update_annotation` merges them under one key), the merge
result always equals the derived section — whole replacement, also when the
derived side is empty. -/
theorem c4_text_merge_replaces (b d : TextParsed) (h : b.name = d.name) :
    textUpdateParsed b d = d := by
  cases b with
  | mk bn bl =>
    cases d with
    | mk dn dl =>
      simp only at h
      simp [textUpdateParsed, h]

/-- Witness for C4 (amended) at a concrete pair, including an empty derived
side. -/
theorem c4_text_merge_replaces_witness :
    textUpdateParsed ⟨some "Notes", ["a"]⟩ ⟨some "Notes", ["b"]⟩
        = (⟨some "Notes", ["b"]⟩ : TextParsed)
    ∧ textUpdateParsed ⟨some "Notes", ["a"]⟩ ⟨some "Notes", []⟩
        = (⟨some "Notes", []⟩ : TextParsed) :=
  ⟨c4_text_merge_replaces _ _ rfl, c4_text_merge_replaces _ _ rfl⟩

/-! ## The term-header and attribute regular expressions

`ITEM_LINE_REGEX` is
`^(?P<name>[^\s]+)\s*(?:\((?P<attrs>.+?)\))?:(?P<help>.+)?$`, and
`ITEM_ATTR_REGEX` is `^(?P<name>[\w-]+)(?:\s*[:=]\s*(?P<value>.+))?$`.
Both are embedded as deterministic searches that follow the regex engine's
backtracking order: the greedy `name` tries the longest candidate first, the
optional attribute group is preferred over skipping it, and the lazy `.+?`
grows its content minimally until `"):"` follows. -/

/-- Find the lazy end of the attribute group: the shortest nonempty content
after `"("` that is followed by `")"` and then `":"`; returns the content
and the remainder after the colon. -/
def findClose (acc : List Char) : List Char → Option (List Char × List Char)
  | [] => none
  | c :: rest =>
    match rest with
    | ')' :: ':' :: rest2 => some (acc ++ [c], rest2)
    | _ => findClose (acc ++ [c]) rest

/-- The optional trailing help group `(?P<help>.+)?$`: absent on an empty
remainder. -/
def helpOf (cs : List Char) : Option String :=
  if cs.isEmpty then none else some (String.mk cs)

/-- Try the item-line pattern with a fixed `name` candidate: `\s*`, then the
optional parenthesised attribute group, then `:` and the help remainder. -/
def attemptItemAt (nm rest : List Char) : Option (String × Option String × Option String) :=
  let rest2 := rest.drop ((rest.takeWhile pyWS).length)
  match rest2 with
  | '(' :: tail =>
    match findClose [] tail with
    | some (content, after) => some (String.mk nm, some (String.mk content), helpOf after)
    | none => none
  | ':' :: after => some (String.mk nm, none, helpOf after)
  | _ => none

/-- Backtrack the greedy `[^\s]+` name from longest to shortest. -/
def tryItemName : List Char → List Char → Option (String × Option String × Option String)
  | [], _ => none
  | c :: nmRev, rest =>
    match attemptItemAt ((c :: nmRev).reverse) rest with
    | some r => some r
    | none => tryItemName nmRev (c :: rest)

/-- Matcher for `ITEM_LINE_REGEX.match(line)`: groups `(name, attrs, help)`. -/
def matchItemLine (line : String) : Option (String × Option String × Option String) :=
  let cs := line.toList
  let run := cs.takeWhile (fun c => !pyWS c)
  tryItemName run.reverse (cs.drop run.length)

/-- Characters of the attribute-name class `[\w-]` (ASCII). -/
def wordChar (c : Char) : Bool := c.isAlphanum || c = '_' || c = '-'

/-- Try the attribute pattern with a fixed name candidate: end of string, or
`\s*[:=]\s*` followed by a nonempty value (the value keeps trailing
whitespace rather than failing, matching the greedy-then-backtrack `\s*.+`). -/
def attemptAttrAt (nm rest : List Char) : Option (String × Option String) :=
  match rest with
  | [] => some (String.mk nm, none)
  | _ =>
    let rest2 := rest.drop ((rest.takeWhile pyWS).length)
    match rest2 with
    | c :: tail =>
      if c = ':' || c = '=' then
        match tail with
        | [] => none
        | _ =>
          let m := min ((tail.takeWhile pyWS).length) (tail.length - 1)
          some (String.mk nm, some (String.mk (tail.drop m)))
      else none
    | [] => none

/-- Backtrack the greedy `[\w-]+` name from longest to shortest. -/
def tryAttrName : List Char → List Char → Option (String × Option String)
  | [], _ => none
  | c :: nmRev, rest =>
    match attemptAttrAt ((c :: nmRev).reverse) rest with
    | some r => some r
    | none => tryAttrName nmRev (c :: rest)

/-- Matcher for `ITEM_ATTR_REGEX.match(attr)`: groups `(name, value)`. -/
def matchItemAttr (s : String) : Option (String × Option String) :=
  let cs := s.toList
  let run := cs.takeWhile wordChar
  tryAttrName run.reverse (cs.drop run.length)

/-! ## The Term Tree Builder `_parse_terms` (sections.py lines 253-352) -/

/-- Exceptions raised by the parser: `MalFormattedAnnotationError` with its
message, Python's `IndexError`, and fuel exhaustion (an embedding device
only; the wrapper always supplies enough fuel, since each recursion level
consumes at least one header line of its input). -/
inductive PErr where
  | malFormatted : String → PErr
  | indexError : PErr
  | fuelOut : PErr
deriving DecidableEq, Repr

/-- The message of the `MalFormattedAnnotationError` raised for a non-header
line before any term header (sections.py lines 320-323). -/
def invalidItemLineMsg (line : String) : String :=
  "\nInvalid item line: " ++ line ++ "\nExpecting: <name>[ (<attrs>)]: <help>"

/-- The message raised for an attribute clause that does not match
`ITEM_ATTR_REGEX` (sections.py lines 299-303). -/
def invalidAttrMsg (attr attrsStr : String) : String :=
  "\nInvalid item attribute: " ++ attr ++ "\nExpecting: <name>[:=]<value>"
    ++ "\nFull attributes: " ++ attrsStr

/-- Parse the parenthesised attribute list: split on `;`, strip, match each
clause, record declaration order in `origin` (sections.py lines 294-309). -/
def parseAttrs (attrsStr : String) : Except PErr ItemAttrs :=
  (strSplitOnChar ';' attrsStr).foldlM
    (fun (acc : ItemAttrs) attrRaw =>
      let attr := pyStrip attrRaw
      match matchItemAttr attr with
      | none => .error (.malFormatted (invalidAttrMsg attr attrsStr))
      | some (an, av) =>
          .ok ⟨alSet acc.pairs an (match av with | none => .vtrue | some s => .vstr s),
               acc.origin ++ [an]⟩)
    ⟨[], []⟩

/-- Loop state of `_parse_terms`: the built map, deferred sub-lines, the
current item's key, and the `just_matched` / `help_continuing` flags. -/
structure PTState where
  terms : TermMap
  sublines : List String
  item : Option String
  justMatched : Bool
  helpCont : Bool
deriving Repr

/-- Update the entry of the current item's key in place. -/
def modEntry (m : TermMap) (k : String) (f : ItemTerm → ItemTerm) : TermMap :=
  match alGet m k with
  | some t => alSet m k (f t)
  | none => m

/-- Last line of the accumulated help (`item.help.splitlines()[-1]`). -/
def lastHelpLine (h : String) : String :=
  (pySplitlines h).getLastD ""

/-- The separator chosen for a continuation line (sections.py lines 328-338):
newline when the literal-block flag is active, the accumulated help ends a
sentence, the line is an example-code line, or the previous help line is
one; otherwise a single space. -/
def contSep (helpCont : Bool) (help : String) (lstripped : String) : String :=
  if helpCont
      || endOfSentence help
      || pyStartsWith lstripped ">>>"
      || ((help != "") && pyStartsWith (lastHelpLine help) ">>>")
  then "\n" else " "

/-- Append a continuation line to the current item (sections.py lines
324-340).  When the literal-block flag is active and the help is still the
bare `"|"` marker, the help is cleared and the line appended with no
separator; otherwise `contSep` decides the separator. -/
def appendCont (helpCont : Bool) (t : ItemTerm) (lstripped : String) : ItemTerm :=
  if helpCont && (t.help == "|") then
    .mk t.name t.attrs t.terms lstripped (t.rawHelp ++ [lstripped])
  else
    .mk t.name t.attrs t.terms
      (t.help ++ contSep helpCont t.help lstripped ++ lstripped)
      (t.rawHelp ++ [lstripped])

/-- The line a header match is attempted on: `line[len(prefix):]` when a
nesting prefix is expected, the line itself at top level (sections.py lines
270-273). -/
def targetOf (pfx : Option String) (line : String) : String :=
  match pfx with
  | some p => String.mk (line.toList.drop p.length)
  | none => line

/-- The line loop of `_parse_terms` (sections.py lines 269-346).  The
recursive parse of a closed item's sub-lines (line 279) is supplied as the
callback `recur`, which the caller binds to `_parse_terms` at one deeper
nesting level. -/
def parseTermsGo (recur : List String → Except PErr TermMap) (pfx : Option String) :
    List String → PTState → Except PErr PTState
  | [], st => .ok st
  | line :: rest, st =>
    let lstripped := pyLstrip line
    match matchItemLine (targetOf pfx line) with
    | some (nm, attrsGrp, helpGrp) =>
      match ((match st.item with
             | some prevKey =>
               match recur st.sublines with
               | .error e => .error e
               | .ok sub =>
                   .ok { st with
                          terms := modEntry st.terms prevKey
                            (fun t => .mk t.name t.attrs sub t.help t.rawHelp),
                          sublines := [] }
             | none => Except.ok st) : Except PErr PTState) with
      | .error e => .error e
      | .ok st1 =>
        match (match attrsGrp with
               | some astr => parseAttrs astr
               | none => Except.ok (⟨[], []⟩ : ItemAttrs)) with
        | .error e => .error e
        | .ok newAttrs =>
          match helpGrp with
          | some h =>
            let hs := pyStrip h
            parseTermsGo recur pfx rest
              { terms := alSet st1.terms nm (.mk nm newAttrs [] hs [hs]),
                sublines := st1.sublines,
                item := some nm,
                justMatched := true,
                helpCont := if hs = "|" then true else st1.helpCont }
          | none =>
            parseTermsGo recur pfx rest
              { terms := alSet st1.terms nm (.mk nm newAttrs [] "" []),
                sublines := st1.sublines,
                item := some nm,
                justMatched := true,
                helpCont := st1.helpCont }
    | none =>
      match st.item with
      | none => .error (.malFormatted (invalidItemLineMsg line))
      | some key =>
        if st.justMatched && !(pyStartsWith lstripped "- ") then
          parseTermsGo recur pfx rest
            { st with terms := modEntry st.terms key (fun t => appendCont st.helpCont t lstripped) }
        else if pyStartsWith lstripped "- " then
          parseTermsGo recur pfx rest
            { st with sublines := st.sublines ++ [line],
                      justMatched := false, helpCont := false }
        else
          parseTermsGo recur pfx rest { st with sublines := st.sublines ++ [line] }

/-- Parser `_parse_terms`: dedent the lines, scan them with `parseTermsGo`, then
finalize the last open item's sub-term tree (sections.py lines 348-351).
Structurally recursive on the fuel, which only bounds the bullet nesting
depth. -/
def parseTerms : Nat → List String → Option String → Nat → Except PErr TermMap
  | 0, _, _, _ => .error .fuelOut
  | fuel' + 1, lines, pfx, level =>
    match parseTermsGo (fun sub => parseTerms fuel' sub (some "- ") (level + 1)) pfx
        (pyDedent lines) ⟨[], [], none, false, false⟩ with
    | .error e => .error e
    | .ok st =>
      match st.item with
      | some key =>
        match parseTerms fuel' st.sublines (some "- ") (level + 1) with
        | .error e => .error e
        | .ok sub =>
            .ok (modEntry st.terms key (fun t => .mk t.name t.attrs sub t.help t.rawHelp))
      | none => .ok st.terms

/-- Sufficient fuel for `parseTerms`: the recursion is one level deeper per
bullet nesting, and each level consumes at least one header line, so the
dedented line count (list length plus embedded newlines) bounds the depth. -/
def parseFuel (lines : List String) : Nat :=
  lines.length + (lines.map (fun l => l.toList.count '\n')).sum + 1

/-- Parser `_parse_terms` with its fuel supplied. -/
def parseTermsTop (lines : List String) (pfx : Option String) (level : Nat) :
    Except PErr TermMap :=
  parseTerms (parseFuel lines) lines pfx level

/-- Parser `SectionItems.parse` (sections.py lines 492-498): parse the buffered
lines, wrapping a malformed-annotation error with the owner class and
section name. -/
def sectionItemsParse (clsName sectionName : String) (lines : List String) :
    Except PErr TermMap :=
  match parseTermsTop lines none 0 with
  | .ok t => .ok t
  | .error (.malFormatted m) =>
      .error (.malFormatted ("[" ++ clsName ++ "/" ++ sectionName ++ "] " ++ m))
  | .error e => .error e

/-! ## Schema-linked section parsers: `SectionInput.parse`, `SectionOutput.parse`

The owning class's declared `input`/`output` schema is a comma-joined string,
a list of strings, or absent — modelled by `PyStrList`.  The `ProcInputType`
constants come from the external `pipen.defaults` module: `VAR = "var"`,
`FILES = "files"`, `DIRS = "dirs"`. -/

/-- A Python value that is a string, a list of strings, or `None`. -/
inductive PyStrList where
  | pstr : String → PyStrList
  | plist : List String → PyStrList
  | pnone : PyStrList
deriving DecidableEq, Repr

/-- Constant `pipen.defaults.ProcInputType.VAR`. -/
def procInputTypeVar : String := "var"

/-- Constant `pipen.defaults.ProcInputType.FILES`. -/
def procInputTypeFiles : String := "files"

/-- Constant `pipen.defaults.ProcInputType.DIRS`. -/
def procInputTypeDirs : String := "dirs"

/-- The warnings the section parsers can emit: the unknown-keys warning of
`SectionInput.parse` / `SectionOutput.parse` (the only warning either of
them constructs). -/
inductive PWarning where
  | unknownItems : String → List String → PWarning
deriving DecidableEq, Repr

/-- Normalisation of `cls.input` (sections.py lines 514-519 together with
`input_keys or []` at line 522): split a string on commas and strip; keep a
nonempty list; `None` or an empty list yield no keys. -/
def normalizeInputKeys : PyStrList → List String
  | .pstr s => (strSplitOnChar ',' s).map pyStrip
  | .plist l => l
  | .pnone => []

/-- Default a bare input key to `key:var` (sections.py lines 523-524). -/
def withVarType (ikt : String) : String :=
  if chMem ':' ikt.toList then ikt else ikt ++ ":" ++ procInputTypeVar

/-- Python `s.split(":", 1)`. -/
def splitFirstColon (s : String) : String × String :=
  match splitOnChar ':' s.toList with
  | [] => (s, "")
  | [x] => (String.mk x, "")
  | x :: rest => (String.mk x, String.mk (joinChar ':' rest))

/-- Set one attribute of the entry at key `k` (a plain dict assignment on
`attrs`; the `origin` meta list is untouched). -/
def modAttr (m : TermMap) (k a : String) (v : AttrVal) : TermMap :=
  modEntry m k (fun t => .mk t.name ⟨alSet t.attrs.pairs a v, t.attrs.origin⟩ t.terms t.help t.rawHelp)

/-- One iteration of the declared-input-keys loop of `SectionInput.parse`
(sections.py lines 522-542): default the type, synthesize an absent term
with the declared `itype` (empty help, no warning), or overwrite the
documented term's `itype`; then set `nargs` and `action`. -/
def applyInputKey (m : TermMap) (ikt : String) : TermMap :=
  let kt := splitFirstColon (withVarType ikt)
  let m1 :=
    match alGet m kt.1 with
    | none => alSet m kt.1 (.mk kt.1 ⟨[("itype", .vstr kt.2)], []⟩ [] "" [])
    | some t =>
        alSet m kt.1 (.mk t.name ⟨alSet t.attrs.pairs "itype" (.vstr kt.2), t.attrs.origin⟩
          t.terms t.help t.rawHelp)
  let m2 := modAttr m1 kt.1 "nargs" (.vstr "+")
  if kt.2 = procInputTypeFiles || kt.2 = procInputTypeDirs then
    modAttr m2 kt.1 "action" (.vstr "append")
  else
    modAttr m2 kt.1 "action" (.vstr "extend")

/-- Parser `SectionInput.parse` (sections.py lines 512-551).  Returns the parsed
tree together with the list of warnings emitted; the only warning the code
constructs is the unknown-input-keys one (set difference modelled in the
result's key order). -/
def sectionInputParse (clsName : String) (inputSpec : PyStrList) (lines : List String)
    (sectionName : String) : Except PErr (TermMap × List PWarning) :=
  match sectionItemsParse clsName sectionName lines with
  | .error e => .error e
  | .ok parsed =>
    let keys := normalizeInputKeys inputSpec
    let res := keys.foldl applyInputKey parsed
    let keyNames := keys.map (fun ikt => (splitFirstColon (withVarType ikt)).1)
    let unknown := (alKeys res).filter (fun k => !strMem k keyNames)
    .ok (res, if unknown.isEmpty then [] else [.unknownItems clsName unknown])

/-- Python falsiness of the declared output spec (`if not output`). -/
def outputFalsy : PyStrList → Bool
  | .pnone => true
  | .pstr s => s = ""
  | .plist l => l.isEmpty

/-- Normalisation of `cls.output` (sections.py lines 565-566). -/
def normalizeOutput : PyStrList → List String
  | .pstr s => (strSplitOnChar ',' s).map pyStrip
  | .plist l => l
  | .pnone => []

/-- Helper `_parse_one_output` (sections.py lines 355-362): split on `:`; a
non-identifier name is skipped (`None`); a spec with fewer than three fields
is completed with the `var` type — reading `parts[1]`, which raises
`IndexError` when there is no colon at all. -/
def parseOneOutput (out : String) : Except PErr (Option (List String)) :=
  let parts := strSplitOnChar ':' out
  if !pyIsIdent (parts.headD "") then .ok none
  else if parts.length < 3 then
    match parts with
    | _ :: p1 :: _ => .ok (some [parts.headD "", procInputTypeVar, p1])
    | _ => .error .indexError
  else .ok (some parts)

/-- The per-triple update of `SectionOutput.parse` (sections.py lines
574-584): synthesize an absent term with `otype`/`default` (empty help, no
warning) or overwrite the documented term's `otype`/`default`. -/
def applyOutputParts (m : TermMap) (n t d : String) : TermMap :=
  if (alGet m n).isSome then
    modAttr (modAttr m n "otype" (.vstr t)) n "default" (.vstr d)
  else
    alSet m n (.mk n ⟨[("otype", .vstr t), ("default", .vstr d)], []⟩ [] "" [])

/-- One iteration of the output-spec loop of `SectionOutput.parse`
(sections.py lines 569-584): parse the entry into its triple, skip the
non-identifier ones, record the kept name, and update the tree. -/
def outStep (acc : TermMap × List String) (out : String) :
    Except PErr (TermMap × List String) :=
  match parseOneOutput out with
  | .error e => .error e
  | .ok none => Except.ok acc
  | .ok (some parts) =>
    match parts with
    | n :: t :: d :: _ => Except.ok (applyOutputParts acc.1 n t d, acc.2 ++ [n])
    | _ => Except.ok acc

/-- Parser `SectionOutput.parse` (sections.py lines 556-593). -/
def sectionOutputParse (clsName : String) (outputSpec : PyStrList) (lines : List String)
    (sectionName : String) : Except PErr (TermMap × List PWarning) :=
  if outputFalsy outputSpec then .ok ([], [])
  else
    match sectionItemsParse clsName sectionName lines with
    | .error e => .error e
    | .ok parsed =>
      match (normalizeOutput outputSpec).foldlM outStep (parsed, []) with
      | .error e => .error e
      | .ok racc =>
        let unknown := (alKeys racc.1).filter (fun k => !strMem k racc.2)
        .ok (racc.1, if unknown.isEmpty then [] else [.unknownItems clsName unknown])

/-! ## Claim C5 -/

/-- C5 as stated is false in one corner: the first continuation line after a
bare `"|"` literal-block marker is not appended to the help with a newline
separator — the marker is cleared and the line replaces it (sections.py
lines 325-326, pinned by `test_envs_help_continuing`).  Parsing
`"a: |"` followed by the continuation `"  x"` yields help `"x"`, not
`"|\nx"`. -/
theorem c5_literal_block_counterexample :
    Except.map (fun m => (alGet m "a").map ItemTerm.help)
        (parseTermsTop ["a: |", "  x"] none 0) = .ok (some "x")
    ∧ "x" ≠ "|" ++ "\n" ++ "x" :=
  ⟨rfl, by decide⟩

/-- C5 amended: a continuation line is appended to the term's help with a
newline separator when the literal-block flag is active, or the accumulated
help ends in `.`, `?`, `!` or `:`, or the continuation line or the previous
help line begins with `>>>`; otherwise with a single space — except that the
first continuation after the bare `"|"` marker replaces the marker (help is
cleared, no separator).  In particular `"help1.\n    help2"` parses to
`"help1.\nhelp2"` and `"help1\n    help2"` parses to `"help1 help2"`. -/
theorem c5_continuation_rule :
    (∀ (hc : Bool) (t : ItemTerm) (l : String),
      (appendCont hc t l).help
        = if hc && (t.help == "|") then l
          else t.help
            ++ (if hc
                  || pyEndsWith t.help "."
                  || pyEndsWith t.help "?"
                  || pyEndsWith t.help "!"
                  || pyEndsWith t.help ":"
                  || pyStartsWith l ">>>"
                  || ((t.help != "") && pyStartsWith (lastHelpLine t.help) ">>>")
                then "\n" else " ")
            ++ l)
    ∧ Except.map (fun m => (alGet m "arg").map ItemTerm.help)
        (parseTermsTop ["arg: help1.", "    help2"] none 0) = .ok (some "help1.\nhelp2")
    ∧ Except.map (fun m => (alGet m "arg").map ItemTerm.help)
        (parseTermsTop ["arg: help1", "    help2"] none 0) = .ok (some "help1 help2") := by
  refine ⟨?_, rfl, rfl⟩
  intro hc t l
  cases t with
  | mk n a ts hh rh =>
    by_cases hlit : (hc && (hh == "|")) = true
    · simp [appendCont, ItemTerm.help, hlit]
    · simp [appendCont, ItemTerm.help, hlit, contSep, endOfSentence, Bool.or_assoc]

/-! ## Claim C9 -/

/-- C9: a line sequence in which a non-header line occurs before any term
header has been matched makes the Term Tree Builder fail with a
`MalFormattedAnnotationError` naming the offending line and the expected
grammar; `SectionItems.parse` (which scans with no nesting prefix) re-raises
it with the owner class and section name.  No partial tree is returned: the
result is an `Except.error`, which carries no term map. -/
theorem c9_malformed_aborts (lines : List String) (pfx : Option String) (level : Nat)
    (clsName sectionName : String)
    (h : ∃ j, j < (pyDedent lines).length
        ∧ ∀ i, i ≤ j →
            (matchItemLine (targetOf pfx ((pyDedent lines).getD i ""))).isSome = false) :
    parseTermsTop lines pfx level
      = .error (.malFormatted (invalidItemLineMsg ((pyDedent lines).headD "")))
    ∧ (pfx = none → sectionItemsParse clsName sectionName lines
        = .error (.malFormatted ("[" ++ clsName ++ "/" ++ sectionName ++ "] "
            ++ invalidItemLineMsg ((pyDedent lines).headD "")))) := by
  obtain ⟨j, hj, hall⟩ := h
  have h0 := hall 0 (Nat.zero_le j)
  have hget : (pyDedent lines).getD 0 "" = (pyDedent lines).headD "" := by
    cases pyDedent lines <;> rfl
  rw [hget] at h0
  have hne : pyDedent lines ≠ [] := by
    intro hnil
    rw [hnil] at hj
    exact Nat.not_lt_zero j hj
  have key : ∀ lv : Nat, parseTermsTop lines pfx lv
      = .error (.malFormatted (invalidItemLineMsg ((pyDedent lines).headD ""))) := by
    intro lv
    cases hdl : pyDedent lines with
    | nil => exact absurd hdl hne
    | cons l0 rest =>
      rw [hdl] at h0
      simp only [List.headD_cons] at h0
      have hm' : matchItemLine (targetOf pfx l0) = none := by
        cases hx : matchItemLine (targetOf pfx l0) with
        | none => rfl
        | some r =>
          rw [hx] at h0
          simp at h0
      unfold parseTermsTop parseFuel
      simp only [parseTerms, hdl, parseTermsGo, hm', List.headD]
  refine ⟨key level, ?_⟩
  intro hpfx
  subst hpfx
  unfold sectionItemsParse
  rw [key 0]

/-- Witness for C9 at the single non-header line `"oops"`. -/
theorem c9_malformed_aborts_witness :
    parseTermsTop ["oops"] none 0 = .error (.malFormatted (invalidItemLineMsg "oops"))
    ∧ sectionItemsParse "P" "Items" ["oops"]
      = .error (.malFormatted ("[P/Items] " ++ invalidItemLineMsg "oops")) := by
  obtain ⟨h1, h2⟩ := c9_malformed_aborts ["oops"] none 0 "P" "Items"
    ⟨0, by decide, fun i hi => by
      have h0 : i = 0 := Nat.le_zero.mp hi
      subst h0
      decide⟩
  exact ⟨h1, h2 rfl⟩

/-! ## Claim C10 -/

/-- A string without a separator splits into the single whole piece. -/
theorem splitOnChar_no_sep (c : Char) (cs : List Char) (h : chMem c cs = false) :
    splitOnChar c cs = [cs] := by
  induction cs with
  | nil => rfl
  | cons x rest ih =>
    simp only [chMem, Bool.or_eq_false_iff] at h
    have hx : ¬ x = c := by
      intro hxc
      rw [hxc] at h
      simp at h
    rw [splitOnChar, ih h.2]
    simp [hx]

/-- C10: a declared output entry with no `:` separator whose text is a valid
identifier makes `_parse_one_output` read `parts[1]` of a one-element list —
an uncaught `IndexError` — rather than skipping the entry or raising the
documented malformed-annotation error; `SectionOutput.parse` propagates it,
as the concrete spec `"out"` shows. -/
theorem c10_output_index_error (s : String)
    (h1 : chMem ':' s.toList = false) (h2 : pyIsIdent s = true) :
    parseOneOutput s = .error .indexError
    ∧ sectionOutputParse "P" (.pstr "out") [] "Output" = .error .indexError := by
  constructor
  · have hsplit : strSplitOnChar ':' s = [s] := by
      unfold strSplitOnChar
      rw [splitOnChar_no_sep ':' s.toList h1]
      rfl
    unfold parseOneOutput
    rw [hsplit]
    simp [h2]
  · rfl

/-- Witness for C10 at the entry `"out"`. -/
theorem c10_output_index_error_witness :
    chMem ':' "out".toList = false ∧ pyIsIdent "out" = true
    ∧ parseOneOutput "out" = .error .indexError
    ∧ sectionOutputParse "P" (.pstr "out") [] "Output" = .error .indexError := by
  obtain ⟨ha, hb⟩ := c10_output_index_error "out" (by decide) (by decide)
  exact ⟨by decide, by decide, ha, hb⟩

/-! ## Claim C2 -/

theorem mem_of_strMem (x : String) (l : List String) (h : strMem x l = true) : x ∈ l := by
  induction l with
  | nil => cases h
  | cons y rest ih =>
    simp only [strMem, Bool.or_eq_true, decide_eq_true_eq] at h
    rcases h with heq | hmem
    · rw [heq] at *
      exact List.mem_cons_self _ _
    · exact List.mem_cons_of_mem _ (ih hmem)

/-- The `action` attribute a declared input key receives (sections.py lines
539-542). -/
def inputActionFor (ty : String) : String :=
  if ty = procInputTypeFiles || ty = procInputTypeDirs then "append" else "extend"

/-- The full placeholder term a declared-but-undocumented input key receives:
empty help, the declared `itype`, `nargs = "+"` and the type's `action`. -/
def inputPlaceholder (k ty : String) : ItemTerm :=
  .mk k ⟨[("itype", .vstr ty), ("nargs", .vstr "+"),
          ("action", .vstr (inputActionFor ty))], []⟩ [] "" []

theorem strMem_filter_not (x : String) (l keyNames : List String)
    (hx : strMem x keyNames = true) :
    strMem x (l.filter (fun k => !strMem k keyNames)) = false := by
  cases hb : strMem x (l.filter (fun k => !strMem k keyNames)) with
  | false => rfl
  | true =>
    have hm := mem_of_strMem _ _ hb
    have hfl := (List.mem_filter.mp hm).2
    rw [hx] at hfl
    cases hfl

theorem modAttr_other (m : TermMap) (k' a : String) (v : AttrVal) (k : String)
    (h : ¬ k' = k) : alGet (modAttr m k' a v) k = alGet m k := by
  unfold modAttr modEntry
  cases hg : alGet m k' with
  | none => rfl
  | some t => exact alGet_alSet_ne m k' k _ (fun hh => h hh.symm)

theorem modAttr_get_self (m : TermMap) (k a : String) (v : AttrVal) (t : ItemTerm)
    (h : alGet m k = some t) :
    alGet (modAttr m k a v) k
      = some (.mk t.name ⟨alSet t.attrs.pairs a v, t.attrs.origin⟩ t.terms t.help t.rawHelp) := by
  unfold modAttr modEntry
  rw [h]
  exact alGet_alSet_self m k _

theorem applyInputKey_other (m : TermMap) (ikt k : String)
    (h : ¬ (splitFirstColon (withVarType ikt)).1 = k) :
    alGet (applyInputKey m ikt) k = alGet m k := by
  have hsym : k ≠ (splitFirstColon (withVarType ikt)).1 := fun hh => h hh.symm
  unfold applyInputKey
  cases hg : alGet m (splitFirstColon (withVarType ikt)).1 with
  | none =>
    simp only [hg]
    split <;>
      rw [modAttr_other _ _ _ _ _ h, modAttr_other _ _ _ _ _ h,
        alGet_alSet_ne _ _ _ _ hsym]
  | some t =>
    simp only [hg]
    split <;>
      rw [modAttr_other _ _ _ _ _ h, modAttr_other _ _ _ _ _ h,
        alGet_alSet_ne _ _ _ _ hsym]

theorem applyInputKey_absent (m : TermMap) (ikt : String)
    (h : alGet m (splitFirstColon (withVarType ikt)).1 = none) :
    alGet (applyInputKey m ikt) (splitFirstColon (withVarType ikt)).1
      = some (inputPlaceholder (splitFirstColon (withVarType ikt)).1
          (splitFirstColon (withVarType ikt)).2) := by
  unfold applyInputKey
  simp only [h]
  have hbase : alGet (alSet m (splitFirstColon (withVarType ikt)).1
      (.mk (splitFirstColon (withVarType ikt)).1
        ⟨[("itype", .vstr (splitFirstColon (withVarType ikt)).2)], []⟩ [] "" []))
      (splitFirstColon (withVarType ikt)).1
      = some (.mk (splitFirstColon (withVarType ikt)).1
          ⟨[("itype", .vstr (splitFirstColon (withVarType ikt)).2)], []⟩ [] "" []) :=
    alGet_alSet_self m _ _
  split
  all_goals rename_i hcond
  all_goals rw [modAttr_get_self _ _ _ _ _ (modAttr_get_self _ _ _ _ _ hbase)]
  all_goals simp [inputPlaceholder, inputActionFor, ItemTerm.name, ItemTerm.attrs,
    ItemTerm.terms, ItemTerm.help, ItemTerm.rawHelp, alSet, alGet, alReplace, hcond]

theorem foldl_applyInputKey_other (ks : List String) (m : TermMap) (k : String)
    (h : ∀ ikt ∈ ks, ¬ (splitFirstColon (withVarType ikt)).1 = k) :
    alGet (ks.foldl applyInputKey m) k = alGet m k := by
  induction ks generalizing m with
  | nil => rfl
  | cons i rest ih =>
    rw [List.foldl_cons, ih _ (fun x hx => h x (List.mem_cons_of_mem _ hx)),
      applyInputKey_other m i k (h i (List.mem_cons_self _ _))]

/-- C2 as stated is false in its warning clause: synthesizing the missing
`infile` emits no warning at all (the warning list is empty; the code has no
missing-annotation warning, only the unknown-keys one), even though the
placeholder itself is synthesized and parsing returns the full result. -/
theorem c2_no_missing_warning_counterexample :
    sectionInputParse "TestProc" (.pstr "infile:file, in2") ["in2: help2"] "Input"
      = .ok ([("in2", .mk "in2" ⟨[("itype", .vstr "var"), ("nargs", .vstr "+"),
                ("action", .vstr "extend")], []⟩ [] "help2" ["help2"]),
              ("infile", .mk "infile" ⟨[("itype", .vstr "file"), ("nargs", .vstr "+"),
                ("action", .vstr "extend")], []⟩ [] "" [])],
             ([] : List PWarning)) := rfl

/-- C2 amended: for every class whose declared input keys include a key with
no corresponding documented term, `SectionInput.parse` synthesizes a
placeholder term for that key (empty help, carrying the declared type,
`nargs` and `action`) silently — no emitted warning mentions that key — and
processing continues to return the full parsed result. -/
theorem c2_placeholder_without_warning
    (clsName sectionName : String) (inputSpec : PyStrList) (lines : List String)
    (parsed res : TermMap) (warns : List PWarning) (pre post : List String) (ikt : String)
    (hparsed : sectionItemsParse clsName sectionName lines = .ok parsed)
    (hres : sectionInputParse clsName inputSpec lines sectionName = .ok (res, warns))
    (hkeys : normalizeInputKeys inputSpec = pre ++ ikt :: post)
    (hdoc : alGet parsed (splitFirstColon (withVarType ikt)).1 = none)
    (hpre : ∀ ikt2 ∈ pre,
      ¬ (splitFirstColon (withVarType ikt2)).1 = (splitFirstColon (withVarType ikt)).1)
    (hpost : ∀ ikt2 ∈ post,
      ¬ (splitFirstColon (withVarType ikt2)).1 = (splitFirstColon (withVarType ikt)).1) :
    alGet res (splitFirstColon (withVarType ikt)).1
      = some (inputPlaceholder (splitFirstColon (withVarType ikt)).1
          (splitFirstColon (withVarType ikt)).2)
    ∧ ∀ cls ks, PWarning.unknownItems cls ks ∈ warns
        → strMem (splitFirstColon (withVarType ikt)).1 ks = false := by
  unfold sectionInputParse at hres
  rw [hparsed] at hres
  simp only [Except.ok.injEq] at hres
  have h1 : (normalizeInputKeys inputSpec).foldl applyInputKey parsed = res :=
    congrArg Prod.fst hres
  have h2 := congrArg Prod.snd hres
  simp only at h1 h2
  constructor
  · rw [← h1, hkeys, List.foldl_append, List.foldl_cons]
    rw [foldl_applyInputKey_other post _ _ hpost]
    rw [applyInputKey_absent _ ikt
      (by rw [foldl_applyInputKey_other pre _ _ hpre]; exact hdoc)]
  · intro cls ks hmem
    rw [← h2] at hmem
    split at hmem
    · cases hmem
    · rcases List.mem_cons.mp hmem with heq | hnil
      · injection heq with hc hks
        subst hks
        have hinkeys : (splitFirstColon (withVarType ikt)).1
            ∈ (normalizeInputKeys inputSpec).map
              (fun ikt => (splitFirstColon (withVarType ikt)).1) := by
          rw [hkeys]
          exact List.mem_map_of_mem _ (List.mem_append_right _ (List.mem_cons_self _ _))
        exact strMem_filter_not _ _ _ (strMem_of_mem_list _ _ hinkeys)
      · cases hnil

/-- Witness for C2 (amended) at the spec's scenario 2: declared keys
`"infile:file, in2"` with only `"in2: help2"` documented. -/
theorem c2_placeholder_without_warning_witness :
    ∃ rw' : TermMap × List PWarning,
      sectionInputParse "TestProc" (.pstr "infile:file, in2") ["in2: help2"] "Input"
        = .ok rw'
      ∧ alGet rw'.1 "infile" = some (inputPlaceholder "infile" "file")
      ∧ ∀ cls ks, PWarning.unknownItems cls ks ∈ rw'.2 → strMem "infile" ks = false := by
  obtain ⟨h1, h2⟩ := c2_placeholder_without_warning "TestProc" "Input"
    (.pstr "infile:file, in2") ["in2: help2"]
    [("in2", .mk "in2" ⟨[], []⟩ [] "help2" ["help2"])]
    [("in2", .mk "in2" ⟨[("itype", .vstr "var"), ("nargs", .vstr "+"),
        ("action", .vstr "extend")], []⟩ [] "help2" ["help2"]),
     ("infile", .mk "infile" ⟨[("itype", .vstr "file"), ("nargs", .vstr "+"),
        ("action", .vstr "extend")], []⟩ [] "" [])]
    [] [] ["in2"] "infile:file" rfl rfl rfl rfl
    (by intro x hx; cases hx)
    (by
      intro x hx
      rcases List.mem_cons.mp hx with heq | hnil
      · rw [heq]
        decide
      · cases hnil)
  exact ⟨_, rfl, h1, h2⟩

/-! ## Claim C6 -/

theorem exceptBind_ok {α β ε : Type} (a : Except ε α) (f : α → Except ε β) (r : β)
    (h : (a >>= f) = .ok r) : ∃ x, a = .ok x ∧ f x = .ok r := by
  cases a with
  | error e => simp [Bind.bind, Except.bind] at h
  | ok x => exact ⟨x, rfl, by simpa [Bind.bind, Except.bind] using h⟩

theorem applyOutputParts_other (m : TermMap) (n t d k : String) (h : ¬ n = k) :
    alGet (applyOutputParts m n t d) k = alGet m k := by
  unfold applyOutputParts
  split
  · rw [modAttr_other _ _ _ _ _ h, modAttr_other _ _ _ _ _ h]
  · exact alGet_alSet_ne _ _ _ _ (fun hh => h hh.symm)

theorem applyOutputParts_get (m : TermMap) (n t d : String) :
    ∃ mt, alGet (applyOutputParts m n t d) n = some mt
      ∧ mt.help = (match alGet m n with | some u => u.help | none => "")
      ∧ alGet mt.attrs.pairs "otype" = some (.vstr t)
      ∧ alGet mt.attrs.pairs "default" = some (.vstr d) := by
  unfold applyOutputParts
  cases hg : alGet m n with
  | none =>
    simp only [hg, Option.isSome_none, Bool.false_eq_true, if_neg, not_false_iff]
    refine ⟨_, alGet_alSet_self m n _, rfl, ?_, ?_⟩
    · simp [ItemTerm.attrs, alGet]
    · simp [ItemTerm.attrs, alGet]
  | some u =>
    have hg1 := modAttr_get_self m n "otype" (.vstr t) u hg
    have hg2 := modAttr_get_self (modAttr m n "otype" (.vstr t)) n "default" (.vstr d) _ hg1
    simp only [hg, Option.isSome_some, if_pos]
    refine ⟨_, hg2, ?_, ?_, ?_⟩
    · rfl
    · show alGet (alSet (alSet u.attrs.pairs "otype" (.vstr t)) "default" (.vstr d)) "otype"
        = some (.vstr t)
      rw [alGet_alSet_ne _ _ _ _ (by decide)]
      exact alGet_alSet_self _ _ _
    · exact alGet_alSet_self _ _ _

theorem outFold_other (l : List String) (acc racc : TermMap × List String) (n : String)
    (hok : l.foldlM outStep acc = .ok racc)
    (hne : ∀ e ∈ l, ∀ parts, parseOneOutput e = .ok (some parts) → ¬ parts.headD "" = n) :
    alGet racc.1 n = alGet acc.1 n := by
  induction l generalizing acc with
  | nil =>
    simp only [List.foldlM_nil] at hok
    have : acc = racc := by
      cases hok
      rfl
    rw [← this]
  | cons e rest ih =>
    rw [List.foldlM_cons] at hok
    obtain ⟨acc1, hstep, hrest⟩ := exceptBind_ok _ _ _ hok
    have hstepget : alGet acc1.1 n = alGet acc.1 n := by
      unfold outStep at hstep
      cases hp : parseOneOutput e with
      | error err => rw [hp] at hstep; cases hstep
      | ok o =>
        rw [hp] at hstep
        cases o with
        | none =>
          cases hstep
          rfl
        | some parts =>
          match parts, hstep with
          | [], hstep => cases hstep; rfl
          | [x], hstep => cases hstep; rfl
          | [x, y], hstep => cases hstep; rfl
          | n' :: t' :: d' :: rest', hstep =>
            cases hstep
            exact applyOutputParts_other _ _ _ _ _ (hne e (List.mem_cons_self _ _) _ hp)
    rw [ih acc1 hrest (fun e' he' => hne e' (List.mem_cons_of_mem _ he')), hstepget]

/-- C6: parsing the Output section splits the declared spec into
`name:type:default` triples; a two-field entry `name:x` is treated as
`name:var:x`; an entry whose name token is not a valid identifier is
silently skipped; and each kept triple's name ends up in the result carrying
`otype` and `default` equal to the schema's type and default — synthesized
with empty help when undocumented and overwritten when documented. -/
theorem c6_output_schema :
    (∀ s, pyIsIdent ((strSplitOnChar ':' s).headD "") = false → parseOneOutput s = .ok none)
    ∧ (∀ s, (strSplitOnChar ':' s).length = 2 →
        pyIsIdent ((strSplitOnChar ':' s).headD "") = true →
        parseOneOutput s = .ok (some [(strSplitOnChar ':' s).headD "", procInputTypeVar,
          (strSplitOnChar ':' s).getD 1 ""]))
    ∧ (∀ (clsName sectionName : String) (outputSpec : PyStrList) (lines : List String)
        (parsed res : TermMap) (warns : List PWarning) (pre post : List String)
        (e n t d : String) (restParts : List String),
        outputFalsy outputSpec = false →
        sectionItemsParse clsName sectionName lines = .ok parsed →
        sectionOutputParse clsName outputSpec lines sectionName = .ok (res, warns) →
        normalizeOutput outputSpec = pre ++ e :: post →
        parseOneOutput e = .ok (some (n :: t :: d :: restParts)) →
        (∀ e' ∈ pre, ∀ parts', parseOneOutput e' = .ok (some parts') → ¬ parts'.headD "" = n) →
        (∀ e' ∈ post, ∀ parts', parseOneOutput e' = .ok (some parts') → ¬ parts'.headD "" = n) →
        ∃ mt, alGet res n = some mt
          ∧ mt.help = (match alGet parsed n with | some u => u.help | none => "")
          ∧ alGet mt.attrs.pairs "otype" = some (.vstr t)
          ∧ alGet mt.attrs.pairs "default" = some (.vstr d)) := by
  refine ⟨?_, ?_, ?_⟩
  · intro s hident
    unfold parseOneOutput
    simp only [hident]
    simp
  · intro s hlen hident
    match hp : strSplitOnChar ':' s, hlen with
    | [a, b], _ =>
      rw [hp] at hident
      simp only [List.headD_cons] at hident
      simp [parseOneOutput, hp, hident]
  · intro clsName sectionName outputSpec lines parsed res warns pre post e n t d restParts
      hfalsy hparsed hres hspec hone hpre hpost
    unfold sectionOutputParse at hres
    simp only [hfalsy, Bool.false_eq_true, if_false, hparsed] at hres
    cases hfold : (normalizeOutput outputSpec).foldlM outStep (parsed, ([] : List String)) with
    | error err =>
      simp only [hfold] at hres
      exact Except.noConfusion hres
    | ok racc =>
      simp only [hfold, Except.ok.injEq] at hres
      have hres1 : racc.1 = res := congrArg Prod.fst hres
      rw [hspec, List.foldlM_append] at hfold
      obtain ⟨accp, hfoldPre, hfold2⟩ := exceptBind_ok _ _ _ hfold
      rw [List.foldlM_cons] at hfold2
      obtain ⟨acc1, hstep, hfoldPost⟩ := exceptBind_ok _ _ _ hfold2
      have hpreget : alGet accp.1 n = alGet parsed n := outFold_other pre _ _ n hfoldPre hpre
      have hstep1 : acc1.1 = applyOutputParts accp.1 n t d := by
        unfold outStep at hstep
        rw [hone] at hstep
        cases hstep
        rfl
      obtain ⟨mt, hmt, hhelp, hotype, hdefault⟩ := applyOutputParts_get accp.1 n t d
      refine ⟨mt, ?_, by rw [hhelp, hpreget], hotype, hdefault⟩
      rw [← hres1, outFold_other post _ _ n hfoldPost hpost, hstep1]
      exact hmt

/-- Witness for C6 at the spec's scenario 3: declared spec
`"outfile:file:{{a}}, outdir:dir:{{b}}, 1"` with only `outdir` documented. -/
theorem c6_output_schema_witness :
    parseOneOutput "1" = .ok none
    ∧ parseOneOutput "out:x" = .ok (some ["out", "var", "x"])
    ∧ (∃ mt, alGet ([("outdir", ItemTerm.mk "outdir"
          ⟨[("otype", .vstr "dir"), ("default", .vstr "\x7b\x7bb\x7d\x7d")], []⟩
          [] "help2" ["help2"]),
        ("outfile", ItemTerm.mk "outfile"
          ⟨[("otype", .vstr "file"), ("default", .vstr "\x7b\x7ba\x7d\x7d")], []⟩
          [] "" [])] : TermMap) "outfile" = some mt
      ∧ mt.help = ""
      ∧ alGet mt.attrs.pairs "otype" = some (.vstr "file")
      ∧ alGet mt.attrs.pairs "default" = some (.vstr "\x7b\x7ba\x7d\x7d")) := by
  obtain ⟨h1, h2, h3⟩ := c6_output_schema
  refine ⟨h1 "1" (by decide), ?_, ?_⟩
  · have := h2 "out:x" (by decide) (by decide)
    exact this
  · have hmain := h3 "TestProc" "Output"
      (.pstr ("outfile:file:\x7b\x7ba\x7d\x7d, outdir:dir:\x7b\x7bb\x7d\x7d, 1"))
      ["outdir: help2"]
      [("outdir", .mk "outdir" ⟨[], []⟩ [] "help2" ["help2"])]
      [("outdir", ItemTerm.mk "outdir"
          ⟨[("otype", .vstr "dir"), ("default", .vstr "\x7b\x7bb\x7d\x7d")], []⟩
          [] "help2" ["help2"]),
       ("outfile", ItemTerm.mk "outfile"
          ⟨[("otype", .vstr "file"), ("default", .vstr "\x7b\x7ba\x7d\x7d")], []⟩
          [] "" [])]
      [] [] ["outdir:dir:\x7b\x7bb\x7d\x7d", "1"]
      ("outfile:file:\x7b\x7ba\x7d\x7d") "outfile" "file" "\x7b\x7ba\x7d\x7d" []
      rfl rfl rfl rfl rfl
      (by intro x hx; cases hx)
      (by
        intro x hx parts' hp'
        rcases List.mem_cons.mp hx with heq | hx2
        · rw [heq] at hp'
          cases hp'
          decide
        · rcases List.mem_cons.mp hx2 with heq2 | hx3
          · rw [heq2] at hp'
            cases hp'
          · cases hx3)
    obtain ⟨mt, hmt, hh, ho, hd⟩ := hmain
    exact ⟨mt, hmt, hh, ho, hd⟩

end PipenAnnotate